import Mathlib

/-!
Verification of the obsidian-vault-mcp core against its specification.

The development shallowly embeds the TypeScript sources:
* the path ACL checker (glob-based read/write authorization),
* the JSON-RPC protocol handler (vaultasmcp-MCPHandler.ts),
* the note CRUD handlers and the breadth-first embed expansion
  (vaultasmcp-NoteHandler.ts, vaultasmcp-Tools.ts).

External collaborators (the Obsidian vault API and metadata cache) are
modelled as explicit finite data (a list of files, a cache function and a
link-resolution function), so every definition is executable.
-/

namespace VaultMCP

/-! ## Glob matching and the path ACL checker

The class PathACLChecker lives in vaultasmcp-PathACL.ts, which is not among
the provided sources (only its callers are).  The definitions in this
section are therefore modelled from the spec, faithfully to its words:
a glob star matches any run of characters excluding the slash, a double
star matches any run including the slash, the whole pattern is anchored,
matching is case-sensitive; checkRead fails iff a forbidden pattern
matches; checkWrite applies forbidden, then the writable allow-list
(when non-empty), then readOnly.
-/

/-- Anchored glob matching on character lists.  A double star matches any
run of characters including the slash; a single star matches any run
excluding the slash; every other character matches itself. -/
def globMatch : List Char → List Char → Bool
  | [], s => s.isEmpty
  | '*' :: '*' :: ps, s =>
      globMatch ps s ||
        (match s with
          | [] => false
          | _ :: s' => globMatch ('*' :: '*' :: ps) s')
  | '*' :: ps, s =>
      globMatch ps s ||
        (match s with
          | [] => false
          | c :: s' => c ≠ '/' && globMatch ('*' :: ps) s')
  | _ :: _, [] => false
  | c :: ps, c' :: s' => c = c' && globMatch ps s'
termination_by p s => (s.length, p.length)

/-- ACL configuration: three lists of glob patterns. -/
structure PathACL where
  forbidden : List String
  readOnly : List String
  writable : List String
deriving DecidableEq, Repr

/-- Does any pattern of the list match the whole path? -/
def matchesAny (patterns : List String) (path : String) : Bool :=
  patterns.any (fun pat => globMatch pat.toList path.toList)

/-- Errors raised by the ACL checker (`Modelled from the spec:` the checker
distinguishes AccessDenied, for forbidden paths, from WriteDenied, for
read-only or not-allow-listed paths). -/
inductive AclError where
  | accessDenied (path : String)
  | writeDenied (path : String)
deriving DecidableEq, Repr

/-- Modelled from the spec: checkReadAccess of vaultasmcp-PathACL.ts
(file absent from the sources).  Fails iff the path matches some
forbidden pattern. -/
def checkReadAccess (acl : PathACL) (path : String) : Except AclError Unit :=
  if matchesAny acl.forbidden path then
    .error (.accessDenied path)
  else
    .ok ()

/-- Modelled from the spec: checkWriteAccess of vaultasmcp-PathACL.ts
(file absent from the sources).  AccessDenied if forbidden matches; else
WriteDenied if the writable list is non-empty and no writable pattern
matches; else WriteDenied if any readOnly pattern matches; else ok. -/
def checkWriteAccess (acl : PathACL) (path : String) : Except AclError Unit :=
  if matchesAny acl.forbidden path then
    .error (.accessDenied path)
  else if !acl.writable.isEmpty && !matchesAny acl.writable path then
    .error (.writeDenied path)
  else if matchesAny acl.readOnly path then
    .error (.writeDenied path)
  else
    .ok ()

/-- The scenario ACL from the spec's testable properties. -/
def scenarioAcl : PathACL :=
  { forbidden := ["secrets/**"], readOnly := ["archive/**"], writable := [] }

example : matchesAny ["templates/**"] "templates/a/b.md" = true := by
  simp [matchesAny, globMatch]

example : matchesAny ["templates/*"] "templates/a/b.md" = false := by
  simp [matchesAny, globMatch]

/-- C1: for every ACL configuration and path, checkReadAccess fails (with
AccessDenied) iff the path matches some forbidden pattern; checkWriteAccess
fails with AccessDenied on forbidden paths, else with WriteDenied when the
writable list is non-empty and unmatched, else with WriteDenied when a
readOnly pattern matches, else succeeds; and checkWriteAccess never
succeeds where checkReadAccess fails. -/
theorem checkRead_checkWrite_spec (acl : PathACL) (p : String) :
    (checkReadAccess acl p = .error (.accessDenied p) ↔
      matchesAny acl.forbidden p = true) ∧
    (matchesAny acl.forbidden p = true →
      checkWriteAccess acl p = .error (.accessDenied p)) ∧
    (matchesAny acl.forbidden p = false → acl.writable ≠ [] →
      matchesAny acl.writable p = false →
      checkWriteAccess acl p = .error (.writeDenied p)) ∧
    (matchesAny acl.forbidden p = false →
      (acl.writable = [] ∨ matchesAny acl.writable p = true) →
      matchesAny acl.readOnly p = true →
      checkWriteAccess acl p = .error (.writeDenied p)) ∧
    (matchesAny acl.forbidden p = false →
      (acl.writable = [] ∨ matchesAny acl.writable p = true) →
      matchesAny acl.readOnly p = false →
      checkWriteAccess acl p = .ok ()) ∧
    (checkWriteAccess acl p = .ok () → checkReadAccess acl p = .ok ()) := by
  refine ⟨?_, ?_, ?_, ?_, ?_, ?_⟩
  · constructor
    · intro h
      by_contra hf
      simp only [Bool.not_eq_true] at hf
      simp [checkReadAccess, hf] at h
    · intro h
      simp [checkReadAccess, h]
  · intro h
    simp [checkWriteAccess, h]
  · intro hf hw hm
    have : acl.writable.isEmpty = false := by
      cases hwl : acl.writable with
      | nil => exact absurd hwl hw
      | cons a l => simp [List.isEmpty]
    simp [checkWriteAccess, hf, hm, this]
  · intro hf hw hr
    rcases hw with hw | hw
    · simp [checkWriteAccess, hf, hw, hr, List.isEmpty]
    · simp [checkWriteAccess, hf, hw, hr]
  · intro hf hw hr
    rcases hw with hw | hw
    · simp [checkWriteAccess, hf, hw, hr, List.isEmpty]
    · simp [checkWriteAccess, hf, hw, hr]
  · intro h
    simp only [checkWriteAccess] at h
    by_cases hf : matchesAny acl.forbidden p
    · simp [hf] at h
    · simp [checkReadAccess, hf]

/-- Witness for C1 at the spec's scenario ACL: secrets/a.md is forbidden for
write, archive/a.md is write-denied (read-only), notes/a.md is writable. -/
theorem checkRead_checkWrite_spec_witness :
    checkWriteAccess scenarioAcl "secrets/a.md" =
        .error (.accessDenied "secrets/a.md") ∧
    checkWriteAccess scenarioAcl "archive/a.md" =
        .error (.writeDenied "archive/a.md") ∧
    checkWriteAccess scenarioAcl "notes/a.md" = .ok () := by
  refine ⟨?_, ?_, ?_⟩
  · exact (checkRead_checkWrite_spec scenarioAcl "secrets/a.md").2.1
      (by simp [scenarioAcl, matchesAny, globMatch])
  · exact (checkRead_checkWrite_spec scenarioAcl "archive/a.md").2.2.2.1
      (by simp [scenarioAcl, matchesAny, globMatch])
      (Or.inl (by simp [scenarioAcl]))
      (by simp [scenarioAcl, matchesAny, globMatch])
  · exact (checkRead_checkWrite_spec scenarioAcl "notes/a.md").2.2.2.2.1
      (by simp [scenarioAcl, matchesAny, globMatch])
      (Or.inl (by simp [scenarioAcl]))
      (by simp [scenarioAcl, matchesAny, globMatch])

/-! ## JSON-RPC protocol handler (src/vaultasmcp-MCPHandler.ts)

The handler is embedded parametrically over the tool layer: Args is the
type of the (opaque) tool-call arguments record and T the type of a
successful tool result; execTool models MCPTools.executeTool, which either
returns a result or throws an error carrying a message.  A returned none
models the null that MCPServer turns into a bodyless 204 (nothing on the
response channel); a returned some response is sent on the channel. -/

/-- JSON-RPC ids are strings or numbers. -/
inductive RpcId where
  | str (s : String)
  | num (n : Int)
deriving DecidableEq, Repr

/-- The fields of request.params that handleToolsCall reads: params.name
(a string, possibly absent) and params.arguments (opaque). -/
structure RequestParams (Args : Type) where
  name : Option String
  arguments : Option Args
deriving DecidableEq, Repr

/-- An inbound MCPRequest: optional id (absent for notifications), method,
optional params. -/
structure MCPRequest (Args : Type) where
  id : Option RpcId
  method : String
  params : Option (RequestParams Args)
deriving DecidableEq, Repr

/-- The result payloads produced by the handler's branches. -/
inductive RpcResult (T : Type) where
  | initializeInfo
  | toolsList
  | pingStatus
  | content (value : T)
deriving DecidableEq, Repr

/-- An outbound MCPResponse: id (copied from the request, hence possibly
absent), and either a result or an error, per createResponse/createError. -/
structure MCPResponse (T : Type) where
  id : Option RpcId
  result : Option (RpcResult T)
  error : Option (Int × String)
deriving DecidableEq, Repr

/-- MCPHandler.createResponse. -/
def createResponse (id : Option RpcId) (r : RpcResult T) : MCPResponse T :=
  { id := id, result := some r, error := none }

/-- MCPHandler.createError. -/
def createError (id : Option RpcId) (code : Int) (message : String) :
    MCPResponse T :=
  { id := id, result := none, error := some (code, message) }

/-- MCPHandler.handleToolsCall.  Reads params.name (the JS falsy check on
toolName fails for both an absent name and the empty string) and
params.arguments (defaulted to the empty record), then runs the tool; a
thrown tool error is caught here and wrapped as a -32000 error response
regardless of whether the request carried an id. -/
def handleToolsCall [Inhabited Args]
    (execTool : String → Args → Except String T)
    (request : MCPRequest Args) : MCPResponse T :=
  let params := request.params.getD { name := none, arguments := none }
  let toolName := params.name.getD ""
  let args := params.arguments.getD default
  if toolName = "" then
    createError request.id (-32602) "Missing tool name in parameters"
  else
    match execTool toolName args with
    | .ok result => createResponse request.id (.content result)
    | .error msg =>
        createError request.id (-32000) ("Tool execution failed: " ++ msg)

/-- MCPHandler.handleRequest: method dispatch.  none models the null that
the server converts to a bodyless 204.  The outer catch of the source can
only fire on exceptions escaping the branches; handleToolsCall catches
tool errors itself, so in this embedding the branches are total. -/
def handleRequest [Inhabited Args]
    (execTool : String → Args → Except String T)
    (request : MCPRequest Args) : Option (MCPResponse T) :=
  match request.method with
  | "initialize" => some (createResponse request.id .initializeInfo)
  | "notifications/initialized" => none
  | "tools/list" => some (createResponse request.id .toolsList)
  | "tools/call" => some (handleToolsCall execTool request)
  | "ping" => some (createResponse request.id .pingStatus)
  | m =>
      if request.id.isSome then
        some (createError request.id (-32601) ("Method not found: " ++ m))
      else
        none

/-- C2 (code bug): a message lacking an id is a notification and must never
produce output on the response channel, but handleRequest does produce a
response for an id-less tools/call whose tool name is missing (a -32602
error) and for an id-less tools/call whose tool handler throws (a -32000
error); the server sends both on the channel. -/
theorem notification_toolsCall_produces_response :
    handleRequest (fun _ _ => (Except.ok () : Except String Unit))
        ({ id := none, method := "tools/call",
           params := some { name := none, arguments := none } } :
          MCPRequest Unit) =
      some { id := none, result := none,
             error := some (-32602, "Missing tool name in parameters") } ∧
    handleRequest (fun _ _ => (Except.error "boom" : Except String Unit))
        ({ id := none, method := "tools/call",
           params := some { name := some "read_note", arguments := none } } :
          MCPRequest Unit) =
      some { id := none, result := none,
             error := some (-32000, "Tool execution failed: boom") } := by
  constructor
  · rfl
  · rfl

/-! ## Vault model

The Obsidian vault and metadata cache are external collaborators; they are
modelled as explicit finite data.  A Vault carries the list of files (with
their contents), the folder paths, the metadata cache (links, embeds,
headings, block spans and tags per path, mirroring CachedMetadata), and
the link-resolution function getFirstLinkpathDest, which returns an index
into the file list so that every resolved target is a vault file. -/

/-- One cached link or embed: the raw link text and the display text
(possibly absent, in which case the JS template literal of
shouldExcludeLink renders the string undefined). -/
structure LinkCache where
  link : String
  displayText : Option String
deriving DecidableEq, Repr

/-- One cached heading: text, level, and the cached start/end offsets of
the heading line within the file content. -/
structure Heading where
  heading : String
  level : Nat
  startOffset : Nat
  endOffset : Nat
deriving DecidableEq, Repr

/-- The cached span of a block, by content offsets. -/
structure BlockSpan where
  startOffset : Nat
  endOffset : Nat
deriving DecidableEq, Repr

/-- The slice of CachedMetadata the embedded code reads. -/
structure FileCacheData where
  links : List LinkCache
  embeds : List LinkCache
  headings : List Heading
  blocks : List (String × BlockSpan)
  tags : List String
deriving DecidableEq, Repr

/-- A vault file (TFile): path, extension and current content (cachedRead
returns the content). -/
structure VaultFile where
  path : String
  extension : String
  content : String
deriving DecidableEq, Repr

/-- The vault and metadata-cache collaborator. -/
structure Vault where
  files : List VaultFile
  folders : List String
  cache : String → Option FileCacheData
  resolve : String → String → Option Nat

/-- metadataCache.getFirstLinkpathDest: resolve a link path relative to a
source path to a vault file, or none when unresolved. -/
def getFirstLinkpathDest (v : Vault) (linkpath fromPath : String) :
    Option VaultFile :=
  (v.resolve linkpath fromPath).bind (fun i => v.files.get? i)

/-- vault.getAbstractFileByPath restricted to files. -/
def getFile (v : Vault) (p : String) : Option VaultFile :=
  v.files.find? (fun f => f.path = p)

/-! ## Insertion-ordered maps and sets

A JS Map iterates in insertion order and Map.set on an existing key
updates in place; a JS Set likewise.  They are modelled as association
lists with the corresponding operations. -/

/-- Map.has. -/
def mapHas (m : List (String × α)) (k : String) : Bool :=
  m.any (fun kv => kv.1 = k)

/-- Map.get. -/
def mapGet (m : List (String × α)) (k : String) : Option α :=
  (m.find? (fun kv => kv.1 = k)).map (fun kv => kv.2)

/-- Map.set: update in place when the key exists, else append. -/
def mapSet (m : List (String × α)) (k : String) (v : α) :
    List (String × α) :=
  if mapHas m k then
    m.map (fun kv => if kv.1 = k then (k, v) else kv)
  else
    m ++ [(k, v)]

/-- Map.delete: remove the entry, preserving the order of the others. -/
def mapDelete (m : List (String × α)) (k : String) : List (String × α) :=
  m.filter (fun kv => kv.1 ≠ k)

/-- Set.add on an insertion-ordered string set. -/
def setAdd (s : List String) (x : String) : List String :=
  if s.contains x then s else s ++ [x]

theorem mapHas_mapSet_self (m : List (String × α)) (k : String) (v : α) :
    mapHas (mapSet m k v) k = true := by
  by_cases h : mapHas m k
  · simp only [mapSet, h, if_true]
    simp only [mapHas, List.any_eq_true] at h ⊢
    obtain ⟨kv, hmem, hk⟩ := h
    refine ⟨(k, v), List.mem_map.2 ⟨kv, hmem, ?_⟩, by simp⟩
    simp only [decide_eq_true_eq] at hk
    simp [hk]
  · simp only [mapSet, h, if_false]
    simp [mapHas]

theorem mapHas_mapSet_mono (m : List (String × α)) (k k' : String) (v : α)
    (h : mapHas m k' = true) : mapHas (mapSet m k v) k' = true := by
  by_cases hk : mapHas m k
  · simp only [mapSet, hk, if_true]
    simp only [mapHas, List.any_eq_true] at h ⊢
    obtain ⟨kv, hmem, hkv⟩ := h
    simp only [decide_eq_true_eq] at hkv
    by_cases hkk : kv.1 = k
    · refine ⟨(k, v), List.mem_map.2 ⟨kv, hmem, by simp [hkk]⟩, by simp [← hkv, hkk]⟩
    · exact ⟨kv, List.mem_map.2 ⟨kv, hmem, by simp [hkk]⟩, by simp [hkv]⟩
  · simp only [mapSet, hk, if_false]
    simp only [mapHas, List.any_append]
    simp only [mapHas] at h
    simp [h]

theorem mem_mapSet (m : List (String × α)) (k : String) (v : α)
    (kv' : String × α) (h : kv' ∈ mapSet m k v) :
    kv' = (k, v) ∨ kv' ∈ m := by
  by_cases hk : mapHas m k
  · simp only [mapSet, hk, if_true] at h
    obtain ⟨kv, hmem, heq⟩ := List.mem_map.1 h
    by_cases hkk : kv.1 = k
    · simp [hkk] at heq
      exact Or.inl heq.symm
    · simp [hkk] at heq
      exact Or.inr (heq ▸ hmem)
  · rw [mapSet, if_neg hk] at h
    rw [List.mem_append, List.mem_singleton] at h
    exact h.elim Or.inr Or.inl

theorem mapGet_mapSet_self (m : List (String × α)) (k : String) (v : α) :
    mapGet (mapSet m k v) k = some v := by
  by_cases hk : mapHas m k
  · rw [mapSet, if_pos hk]
    induction m with
    | nil => simp [mapHas] at hk
    | cons kv t ih =>
        by_cases hkk : kv.1 = k
        · simp [mapGet, List.find?, hkk]
        · simp only [List.map_cons]
          rw [if_neg hkk]
          have ht : mapHas t k := by
            simp only [mapHas, List.any_cons, Bool.or_eq_true] at hk
            rcases hk with h | h
            · exact absurd (by simpa using h) hkk
            · simpa [mapHas] using h
          simpa [mapGet, List.find?, hkk] using ih ht
  · rw [mapSet, if_neg hk]
    induction m with
    | nil => simp [mapGet, List.find?]
    | cons kv t ih =>
        have hkk : ¬(kv.1 = k) := by
          intro h
          exact hk (by simp [mapHas, List.any_cons, h])
        have ht : ¬mapHas t k := by
          intro h
          exact hk (by simp [mapHas, List.any_cons] at h ⊢; exact Or.inr h)
        simpa [mapGet, List.find?, hkk] using ih ht

theorem find?_update_ne (t : List (String × α)) (k k' : String) (v : α)
    (hne : k ≠ k') :
    (t.map (fun kv => if kv.1 = k then (k, v) else kv)).find?
        (fun kv => kv.1 = k') =
      t.find? (fun kv => kv.1 = k') := by
  induction t with
  | nil => simp
  | cons kv t ih =>
      by_cases hkk : kv.1 = k
      · have h1 : ¬(kv.1 = k') := by rw [hkk]; exact hne
        simp [List.find?, hkk, hne, h1, ih]
      · have hhead : (if kv.1 = k then (k, v) else kv) = kv := if_neg hkk
        rw [List.map_cons, hhead]
        by_cases hkp : kv.1 = k'
        · simp [List.find?, hkp]
        · simp [List.find?, hkp, ih]

theorem mapGet_mapSet_ne (m : List (String × α)) (k k' : String) (v : α)
    (hne : k ≠ k') : mapGet (mapSet m k v) k' = mapGet m k' := by
  by_cases hk : mapHas m k
  · rw [mapSet, if_pos hk]
    simp only [mapGet]
    rw [find?_update_ne m k k' v hne]
  · rw [mapSet, if_neg hk]
    simp only [mapGet]
    clear hk
    induction m with
    | nil => simp [List.find?, hne]
    | cons kv t ih =>
        by_cases hkp : kv.1 = k'
        · simp [List.find?, hkp]
        · simp only [List.cons_append, List.find?, hkp, decide_False]
          exact ih

theorem mapSet_keys_of_has (m : List (String × α)) (k : String) (v : α)
    (h : mapHas m k = true) :
    (mapSet m k v).map (fun kv => kv.1) = m.map (fun kv => kv.1) := by
  rw [mapSet, if_pos h, List.map_map]
  refine List.map_congr_left (fun kv _ => ?_)
  by_cases hkk : kv.1 = k
  · simp [hkk]
  · simp [hkk]

theorem mapSet_keys_of_new (m : List (String × α)) (k : String) (v : α)
    (h : mapHas m k = false) :
    (mapSet m k v).map (fun kv => kv.1) = m.map (fun kv => kv.1) ++ [k] := by
  rw [mapSet, if_neg (by simp [h]), List.map_append]
  rfl

theorem mapSet_keys_nodup (m : List (String × α)) (k : String) (v : α)
    (h : ((m.map (fun kv => kv.1))).Nodup) :
    ((mapSet m k v).map (fun kv => kv.1)).Nodup := by
  by_cases hk : mapHas m k
  · rw [mapSet_keys_of_has m k v hk]
    exact h
  · rw [mapSet_keys_of_new m k v (by simpa using hk)]
    rw [List.nodup_append]
    refine ⟨h, List.nodup_singleton k, ?_⟩
    intro a ha hb
    simp only [List.mem_singleton] at hb
    subst hb
    obtain ⟨kv, hmem, hkv⟩ := List.mem_map.1 ha
    refine hk ?_
    simp only [mapHas, List.any_eq_true, decide_eq_true_eq]
    exact ⟨kv, hmem, hkv⟩

theorem length_filter_mono (l : List β) {p q : β → Bool}
    (h : ∀ x, p x = true → q x = true) :
    (l.filter p).length ≤ (l.filter q).length :=
  (List.monotone_filter_right l (by simpa using h)).length_le

theorem length_filter_lt {l : List β} {p q : β → Bool} {x₀ : β}
    (hmem : x₀ ∈ l) (hq : q x₀ = false) (hp : p x₀ = true)
    (h : ∀ x, q x = true → p x = true) :
    (l.filter q).length < (l.filter p).length := by
  have hsub : List.Sublist (l.filter q) (l.filter p) :=
    List.monotone_filter_right l (by simpa using h)
  refine lt_of_le_of_ne hsub.length_le (fun heq => ?_)
  have heql : l.filter q = l.filter p := hsub.eq_of_length heq
  have hx : x₀ ∈ l.filter p := List.mem_filter.2 ⟨hmem, hp⟩
  rw [← heql] at hx
  exact absurd (List.mem_filter.1 hx).2 (by simp [hq])

/-! ## Breadth-first collection of linked files
(NoteHandler.collectLinkedFiles of vaultasmcp-NoteHandler.ts) -/

/-- MAX_DEPTH: limit embed expansion depth. -/
def MAX_DEPTH : Nat := 2

/-- The per-target record of the visited map (type EmbeddedLink of the
source).  subpaths is a JS Set in insertion order. -/
structure EmbeddedLink where
  subpaths : List String
  hasFullReference : Bool
  file : Option VaultFile
  depth : Nat
deriving DecidableEq, Repr

/-- The visited map (type EmbeddedNotes of the source): a JS Map in
insertion order keyed by resolved path, or by raw link text for
unresolved or denied references. -/
abbrev EmbeddedNotes := List (String × EmbeddedLink)

/-- A queue element.  The source queue holds the EmbeddedLink objects
shared with the map, but the loop reads only their file and depth fields,
which are never mutated after creation, so the queue is modelled by
those two fields. -/
structure QueueItem where
  file : Option VaultFile
  depth : Nat
deriving DecidableEq, Repr

/-- The loop state: the seenLinks map and the FIFO fileQueue. -/
structure BfsState where
  seen : EmbeddedNotes
  queue : List QueueItem

/-- NoteHandler.shouldExcludeLink: format the reference as
[displayText](link) and test it against every compiled exclude pattern.
A compiled RegExp is modelled by its test function.  When displayText is
absent the JS template literal renders undefined. -/
def shouldExcludeLink (linkCache : LinkCache)
    (excludePatterns : List (String → Bool)) : Bool :=
  let textToCheck :=
    "[" ++ linkCache.displayText.getD "undefined" ++ "](" ++
      linkCache.link ++ ")"
  excludePatterns.any (fun pattern => pattern textToCheck)

/-- NoteHandler.parseLinkReference: split the raw link at the first #
into target path and optional subpath. -/
def parseLinkReference (link : String) : String × Option String :=
  match link.toList.findIdx? (fun c => c = '#') with
  | none => (link, none)
  | some anchorPos =>
      (⟨link.toList.take anchorPos⟩, some ⟨link.toList.drop (anchorPos + 1)⟩)

/-- The body of the inner for-loop of collectLinkedFiles, processing one
cached link against the state.  In the source, when the resolved key is
new, the record is created, inserted and enqueued and only then marked
with the full reference or the subpath; since the queue ignores those
fields, marking before insertion is equivalent. -/
def processLink (v : Vault) (acl : PathACL)
    (excludePatterns : List (String → Bool))
    (currentPath : String) (currentDepth : Nat)
    (st : BfsState) (cachedLink : LinkCache) : BfsState :=
  if shouldExcludeLink cachedLink excludePatterns then st
  else
    let linkKey := cachedLink.link
    if mapHas st.seen linkKey then st
    else
      let parsed := parseLinkReference cachedLink.link
      match getFirstLinkpathDest v parsed.1 currentPath with
      | none =>
          { st with
            seen := mapSet st.seen linkKey
              { subpaths := [], hasFullReference := false, file := none,
                depth := currentDepth + 1 } }
      | some targetFile =>
          match checkReadAccess acl targetFile.path with
          | .error _ =>
              { st with
                seen := mapSet st.seen linkKey
                  { subpaths := [], hasFullReference := false, file := none,
                    depth := currentDepth + 1 } }
          | .ok _ =>
              let key := targetFile.path
              match mapGet st.seen key with
              | some ref =>
                  let ref' :=
                    match parsed.2 with
                    | none => { ref with hasFullReference := true }
                    | some subpath =>
                        { ref with subpaths := setAdd ref.subpaths subpath }
                  { st with seen := mapSet st.seen key ref' }
              | none =>
                  let base : EmbeddedLink :=
                    { subpaths := [], hasFullReference := false,
                      file := some targetFile, depth := currentDepth + 1 }
                  let ref' :=
                    match parsed.2 with
                    | none => { base with hasFullReference := true }
                    | some subpath =>
                        { base with subpaths := setAdd base.subpaths subpath }
                  { seen := mapSet st.seen key ref',
                    queue := st.queue ++
                      [{ file := some targetFile,
                         depth := currentDepth + 1 }] }

/-- Termination measure for the loop: queue length plus twice the number
of vault files whose path is not yet a key of the visited map. -/
def bfsMeasure (v : Vault) (st : BfsState) : Nat :=
  st.queue.length +
    2 * (v.files.filter (fun f => !mapHas st.seen f.path)).length

theorem unseen_mono (m : EmbeddedNotes) (k : String) (e : EmbeddedLink) :
    ∀ f : VaultFile,
      (!mapHas (mapSet m k e) f.path) = true → (!mapHas m f.path) = true := by
  intro f h
  simp only [Bool.not_eq_true'] at h ⊢
  by_contra hc
  simp only [Bool.not_eq_false] at hc
  rw [mapHas_mapSet_mono m k f.path e hc] at h
  exact absurd h (by simp)

theorem mapHas_eq_isSome (m : List (String × α)) (k : String) :
    mapHas m k = (mapGet m k).isSome := by
  induction m with
  | nil => simp [mapHas, mapGet, List.find?]
  | cons kv t ih =>
      by_cases hkk : kv.1 = k
      · simp [mapHas, mapGet, List.find?, hkk]
      · simp only [mapHas, mapGet, List.any_cons, List.find?] at ih ⊢
        simp [hkk, ih]

theorem bfsMeasure_set_le (v : Vault) (seen : EmbeddedNotes)
    (q : List QueueItem) (k : String) (e : EmbeddedLink) :
    bfsMeasure v { seen := mapSet seen k e, queue := q } ≤
      bfsMeasure v { seen := seen, queue := q } := by
  simp only [bfsMeasure]
  have := length_filter_mono v.files (unseen_mono seen k e)
  omega

theorem bfsMeasure_push_le (v : Vault) (seen : EmbeddedNotes)
    (q : List QueueItem) (targetFile : VaultFile) (e : EmbeddedLink)
    (item : QueueItem) (hmem : targetFile ∈ v.files)
    (hnothas : mapHas seen targetFile.path = false) :
    bfsMeasure v { seen := mapSet seen targetFile.path e,
                   queue := q ++ [item] } ≤
      bfsMeasure v { seen := seen, queue := q } := by
  have hlt :
      (v.files.filter (fun f =>
          !mapHas (mapSet seen targetFile.path e) f.path)).length <
        (v.files.filter (fun f => !mapHas seen f.path)).length := by
    refine length_filter_lt hmem ?_ (by simp [hnothas]) (unseen_mono seen targetFile.path e)
    simp [mapHas_mapSet_self]
  simp only [bfsMeasure, List.length_append, List.length_cons,
    List.length_nil]
  omega

theorem bfsMeasure_processLink_le (v : Vault) (acl : PathACL)
    (pats : List (String → Bool)) (cp : String) (cd : Nat)
    (st : BfsState) (l : LinkCache) :
    bfsMeasure v (processLink v acl pats cp cd st l) ≤ bfsMeasure v st := by
  by_cases h1 : shouldExcludeLink l pats
  · simp [processLink, h1]
  · by_cases h2 : mapHas st.seen l.link
    · simp [processLink, h1, h2]
    · cases hdest : getFirstLinkpathDest v (parseLinkReference l.link).1 cp with
      | none =>
          have h3 :
              processLink v acl pats cp cd st l =
                { st with
                  seen := mapSet st.seen l.link
                    { subpaths := [], hasFullReference := false,
                      file := none, depth := cd + 1 } } := by
            simp [processLink, h1, h2, hdest]
          rw [h3]
          exact bfsMeasure_set_le v st.seen st.queue _ _
      | some targetFile =>
          cases hacl : checkReadAccess acl targetFile.path with
          | error e =>
              have h3 :
                  processLink v acl pats cp cd st l =
                    { st with
                      seen := mapSet st.seen l.link
                        { subpaths := [], hasFullReference := false,
                          file := none, depth := cd + 1 } } := by
                simp [processLink, h1, h2, hdest, hacl]
              rw [h3]
              exact bfsMeasure_set_le v st.seen st.queue _ _
          | ok u =>
              cases hget : mapGet st.seen targetFile.path with
              | some ref =>
                  have h3 :
                      processLink v acl pats cp cd st l =
                        { st with
                          seen := mapSet st.seen targetFile.path
                            (match (parseLinkReference l.link).2 with
                              | none => { ref with hasFullReference := true }
                              | some subpath =>
                                  { ref with
                                    subpaths :=
                                      setAdd ref.subpaths subpath }) } := by
                    simp [processLink, h1, h2, hdest, hacl, hget]
                  rw [h3]
                  exact bfsMeasure_set_le v st.seen st.queue _ _
              | none =>
                  have hmem : targetFile ∈ v.files := by
                    simp only [getFirstLinkpathDest,
                      Option.bind_eq_some] at hdest
                    obtain ⟨i, _, hi⟩ := hdest
                    exact List.get?_mem hi
                  have hnothas : mapHas st.seen targetFile.path = false := by
                    rw [mapHas_eq_isSome, hget]
                    rfl
                  have h3 :
                      processLink v acl pats cp cd st l =
                        { seen := mapSet st.seen targetFile.path
                            (match (parseLinkReference l.link).2 with
                              | none =>
                                  { subpaths := [],
                                    hasFullReference := true,
                                    file := some targetFile,
                                    depth := cd + 1 }
                              | some subpath =>
                                  { subpaths := setAdd [] subpath,
                                    hasFullReference := false,
                                    file := some targetFile,
                                    depth := cd + 1 }),
                          queue := st.queue ++
                            [{ file := some targetFile,
                               depth := cd + 1 }] } := by
                    simp only [processLink, h1, h2, hdest, hacl, hget]
                    cases (parseLinkReference l.link).2 <;> simp
                  rw [h3]
                  exact bfsMeasure_push_le v st.seen st.queue targetFile _ _
                    hmem hnothas

theorem bfsMeasure_foldl_le (v : Vault) (acl : PathACL)
    (pats : List (String → Bool)) (cp : String) (cd : Nat)
    (links : List LinkCache) (st : BfsState) :
    bfsMeasure v (links.foldl (processLink v acl pats cp cd) st) ≤
      bfsMeasure v st := by
  induction links generalizing st with
  | nil => exact le_refl _
  | cons l rest ih =>
      exact le_trans (ih (processLink v acl pats cp cd st l))
        (bfsMeasure_processLink_le v acl pats cp cd st l)

/-- The while-loop of NoteHandler.collectLinkedFiles: pop the FIFO queue;
skip entries whose file is null or whose depth has reached MAX_DEPTH;
otherwise gather the file's outgoing references (links only when
includeLinks, then embeds) and process each in order.  Termination:
every iteration pops one queue element, and an element is pushed only
when a vault file's path is newly inserted into the visited map, so
bfsMeasure strictly decreases. -/
def bfsLoop (v : Vault) (acl : PathACL) (pats : List (String → Bool))
    (includeLinks : Bool) : BfsState → EmbeddedNotes
  | { seen := seen, queue := [] } => seen
  | { seen := seen, queue := item :: rest } =>
      match item.file with
      | none =>
          bfsLoop v acl pats includeLinks { seen := seen, queue := rest }
      | some currentFile =>
          if item.depth ≥ MAX_DEPTH then
            bfsLoop v acl pats includeLinks { seen := seen, queue := rest }
          else
            match v.cache currentFile.path with
            | none =>
                bfsLoop v acl pats includeLinks
                  { seen := seen, queue := rest }
            | some fileCache =>
                let allLinks :=
                  (if includeLinks then fileCache.links else []) ++
                    fileCache.embeds
                bfsLoop v acl pats includeLinks
                  (allLinks.foldl
                    (processLink v acl pats currentFile.path item.depth)
                    { seen := seen, queue := rest })
termination_by st => bfsMeasure v st
decreasing_by
  all_goals
    first
      | (simp only [bfsMeasure, List.length_cons]; omega)
      | (refine lt_of_le_of_lt (bfsMeasure_foldl_le v acl pats
            currentFile.path item.depth _ _) ?_
         simp only [bfsMeasure, List.length_cons]
         omega)

/-- Phase 1 of the expansion (NoteHandler.collectLinkedFiles): seed the
visited map and queue with the source file at depth 0 and full-reference
status, then run the breadth-first loop. -/
def collectLinkedFiles (v : Vault) (acl : PathACL)
    (pats : List (String → Bool)) (includeLinks : Bool)
    (sourceFile : VaultFile) : EmbeddedNotes :=
  let origin : EmbeddedLink :=
    { hasFullReference := true, subpaths := [], file := some sourceFile,
      depth := 0 }
  bfsLoop v acl pats includeLinks
    { seen := [(sourceFile.path, origin)],
      queue := [{ file := some sourceFile, depth := 0 }] }

/-! ## String helpers mirroring the JS built-ins used by the source -/

/-- JS String.prototype.substring with non-negative arguments: clamp both
indices to the length, swap when out of order, return the slice. -/
def jsSubstring (s : String) (a b : Nat) : String :=
  let l := s.toList
  let a' := min a l.length
  let b' := min b l.length
  ⟨(l.drop (min a' b')).take (max a' b' - min a' b')⟩

/-- Whitespace for the model of JS trim and of the regex class \s
(ASCII subset). -/
def isJsSpace (c : Char) : Bool :=
  c = ' ' || c = '\t' || c = '\n' || c = '\r' || c = '\x0b' || c = '\x0c'

/-- JS String.prototype.trim. -/
def jsTrim (s : String) : String :=
  ⟨((s.toList.dropWhile isJsSpace).reverse.dropWhile isJsSpace).reverse⟩

/-- Hex digit value. -/
def hexVal (c : Char) : Option Nat :=
  if '0' ≤ c ∧ c ≤ '9' then some (c.toNat - '0'.toNat)
  else if 'a' ≤ c ∧ c ≤ 'f' then some (c.toNat - 'a'.toNat + 10)
  else if 'A' ≤ c ∧ c ≤ 'F' then some (c.toNat - 'A'.toNat + 10)
  else none

/-- decodeURIComponent on a character list: percent-escape sequences are
decoded as UTF-8 (1 to 4 byte forms, rejecting stray continuation bytes,
surrogate code points and out-of-range values); other characters stand
for themselves; none models the thrown URIError. -/
def percentDecodeList : List Char → Option (List Char)
  | [] => some []
  | '%' :: h1 :: h2 :: rest =>
      match hexVal h1, hexVal h2 with
      | some a, some b =>
          let b1 := 16 * a + b
          if b1 < 0x80 then
            (percentDecodeList rest).map (fun l => Char.ofNat b1 :: l)
          else if b1 < 0xC0 then
            none
          else if b1 < 0xE0 then
            match rest with
            | '%' :: h3 :: h4 :: rest2 =>
                match hexVal h3, hexVal h4 with
                | some a2, some b2 =>
                    let b2v := 16 * a2 + b2
                    if 0x80 ≤ b2v ∧ b2v < 0xC0 then
                      let cp := (b1 - 0xC0) * 0x40 + (b2v - 0x80)
                      if 0x80 ≤ cp then
                        (percentDecodeList rest2).map
                          (fun l => Char.ofNat cp :: l)
                      else none
                    else none
                | _, _ => none
            | _ => none
          else if b1 < 0xF0 then
            match rest with
            | '%' :: h3 :: h4 :: '%' :: h5 :: h6 :: rest2 =>
                match hexVal h3, hexVal h4, hexVal h5, hexVal h6 with
                | some a2, some b2, some a3, some b3 =>
                    let b2v := 16 * a2 + b2
                    let b3v := 16 * a3 + b3
                    if (0x80 ≤ b2v ∧ b2v < 0xC0) ∧
                        (0x80 ≤ b3v ∧ b3v < 0xC0) then
                      let cp := (b1 - 0xE0) * 0x1000 +
                        (b2v - 0x80) * 0x40 + (b3v - 0x80)
                      if 0x800 ≤ cp ∧ ¬(0xD800 ≤ cp ∧ cp ≤ 0xDFFF) then
                        (percentDecodeList rest2).map
                          (fun l => Char.ofNat cp :: l)
                      else none
                    else none
                | _, _, _, _ => none
            | _ => none
          else if b1 < 0xF8 then
            match rest with
            | '%' :: h3 :: h4 :: '%' :: h5 :: h6 :: '%' :: h7 :: h8 :: rest2 =>
                match hexVal h3, hexVal h4, hexVal h5, hexVal h6,
                    hexVal h7, hexVal h8 with
                | some a2, some b2, some a3, some b3, some a4, some b4 =>
                    let b2v := 16 * a2 + b2
                    let b3v := 16 * a3 + b3
                    let b4v := 16 * a4 + b4
                    if (0x80 ≤ b2v ∧ b2v < 0xC0) ∧
                        (0x80 ≤ b3v ∧ b3v < 0xC0) ∧
                        (0x80 ≤ b4v ∧ b4v < 0xC0) then
                      let cp := (b1 - 0xF0) * 0x40000 +
                        (b2v - 0x80) * 0x1000 + (b3v - 0x80) * 0x40 +
                        (b4v - 0x80)
                      if 0x10000 ≤ cp ∧ cp ≤ 0x10FFFF then
                        (percentDecodeList rest2).map
                          (fun l => Char.ofNat cp :: l)
                      else none
                    else none
                | _, _, _, _, _, _ => none
            | _ => none
          else none
      | _, _ => none
  | '%' :: _ :: [] => none
  | '%' :: [] => none
  | c :: rest => (percentDecodeList rest).map (fun l => c :: l)

/-- The fallback value.replace of normalizeHeading: replace every
occurrence of the three characters percent two zero by a space, scanning
left to right. -/
def replacePercent20 : List Char → List Char
  | '%' :: '2' :: '0' :: rest => ' ' :: replacePercent20 rest
  | c :: rest => c :: replacePercent20 rest
  | [] => []

/-- The regex class \w of JS: ASCII letters, digits and underscore. -/
def isWordChar (c : Char) : Bool :=
  c.isAlphanum || c = '_'

/-- Helper of collapseRuns: the flag records whether the previous
character belonged to the current whitespace-or-underscore run (whose
hyphen has already been emitted). -/
def collapseRunsAux : Bool → List Char → List Char
  | _, [] => []
  | inRun, c :: cs =>
      if isJsSpace c || c = '_' then
        if inRun then collapseRunsAux true cs
        else '-' :: collapseRunsAux true cs
      else
        c :: collapseRunsAux false cs

/-- Collapse every maximal run of whitespace or underscores into a single
hyphen (the g-flagged replace of the class with a hyphen). -/
def collapseRuns (l : List Char) : List Char :=
  collapseRunsAux false l

/-- NoteHandler.normalizeHeading: percent-decode (with the replace
fallback on a URIError), trim, lowercase, drop everything outside word
characters, whitespace and hyphens, then collapse whitespace and
underscore runs to single hyphens. -/
def normalizeHeading (value : String) : String :=
  let decoded :=
    match percentDecodeList value.toList with
    | some l => l
    | none => replacePercent20 value.toList
  let trimmed := (decoded.dropWhile isJsSpace).reverse.dropWhile isJsSpace
      |>.reverse
  let lowered := trimmed.map Char.toLower
  let kept := lowered.filter
    (fun c => isWordChar c || isJsSpace c || c = '-')
  ⟨collapseRuns kept⟩

/-! ## Phase 2: content assembly
(NoteHandler.expandCollectedContent, extractSubpathContent) -/

/-- NoteHandler.extractSubpathContent.  A subpath starting with a caret
names a block: return the trimmed exact span of the block, or the empty
string when the block id is unknown.  Otherwise the subpath names a
heading: find the first heading whose normalized text equals the
normalized subpath (the source pairs find with indexOf on the found
object, which under value semantics is the first index satisfying the
predicate); the section runs from the end offset of the heading line to
the start offset of the next heading of less or equal level, or to the
end of the content; no match yields the empty string. -/
def extractSubpathContent (v : Vault) (file : VaultFile)
    (fileContent : String) (subpath : String) : String :=
  match v.cache file.path with
  | none => ""
  | some cache =>
      if subpath.toList.head? = some '^' then
        let blockId : String := ⟨subpath.toList.drop 1⟩
        match (cache.blocks.find? (fun kv => kv.1 = blockId)).map
            (fun kv => kv.2) with
        | some block =>
            jsTrim (jsSubstring fileContent block.startOffset block.endOffset)
        | none => ""
      else
        let targetNormalized := normalizeHeading subpath
        match cache.headings.findIdx?
            (fun h => normalizeHeading h.heading = targetNormalized) with
        | some headingIndex =>
            match cache.headings.get? headingIndex with
            | some heading =>
                let startOff := heading.endOffset
                let endOff :=
                  match (cache.headings.drop (headingIndex + 1)).find?
                      (fun h => h.level ≤ heading.level) with
                  | some h => h.startOffset
                  | none => fileContent.toList.length
                jsTrim (jsSubstring fileContent startOff endOff)
            | none => ""
        | none => ""

/-- The output block a single visited entry contributes in
NoteHandler.expandCollectedContent: nothing for a null or non-markdown
file; the whole content wrapped in entry markers on a full reference;
otherwise one wrapped extracted section per collected subpath, in
insertion order. -/
def entryBlocks (v : Vault) (link : EmbeddedLink) : List String :=
  match link.file with
  | none => []
  | some f =>
      if f.extension = "md" then
        if link.hasFullReference then
          ["===== BEGIN ENTRY: " ++ f.path ++ " =====", f.content,
            "===== END ENTRY =====\n"]
        else
          link.subpaths.flatMap (fun subpath =>
            ["===== BEGIN ENTRY: " ++ f.path ++ "#" ++ subpath ++ " =====",
              extractSubpathContent v f f.content subpath,
              "===== END ENTRY =====\n"])
      else
        []

/-- Phase 2 (NoteHandler.expandCollectedContent): concatenate the blocks
of the visited entries in map insertion order. -/
def expandCollectedContent (v : Vault) (linkedFiles : EmbeddedNotes) :
    List String :=
  linkedFiles.flatMap (fun kv => entryBlocks v kv.2)

/-- NoteHandler.expandLinkedFiles: no metadata cache for the source file
returns the content unchanged; otherwise collect linked files
breadth-first, drop the source entry, expand the rest, and append the
joined expansion after a separator line when anything was collected. -/
def expandLinkedFiles (v : Vault) (acl : PathACL) (sourceFile : VaultFile)
    (content : String) (excludePatterns : List (String → Bool))
    (includeLinks : Bool) : String :=
  match v.cache sourceFile.path with
  | none => content
  | some _ =>
      let linkedFiles :=
        collectLinkedFiles v acl excludePatterns includeLinks sourceFile
      let linkedFiles := mapDelete linkedFiles sourceFile.path
      let expandedContent := expandCollectedContent v linkedFiles
      if expandedContent.length ≠ 0 then
        content ++ "\n----- EMBEDDED/LINKED CONTENT -----\n" ++
          String.intercalate "\n" expandedContent
      else
        content

/-- NoteHandler.compileExcludePatterns: compile each pattern with the JS
RegExp constructor (modelled by the collaborator function compile, whose
none result models the thrown SyntaxError); invalid patterns are skipped
with a warning, valid ones are kept in order. -/
def compileExcludePatterns (compile : String → Option (String → Bool))
    (patterns : List String) : List (String → Bool) :=
  patterns.foldl
    (fun compiled pattern =>
      match compile pattern with
      | some r => compiled ++ [r]
      | none => compiled)
    []

/-! ## Invariants of the breadth-first collection -/

theorem mapGet_mem (m : List (String × α)) (k : String) (x : α)
    (h : mapGet m k = some x) : (k, x) ∈ m := by
  rw [mapGet, Option.map_eq_some'] at h
  obtain ⟨kv, hfind, hsnd⟩ := h
  have hmem := List.mem_of_find?_eq_some hfind
  have hpred := List.find?_some hfind
  simp only [decide_eq_true_eq] at hpred
  have hkv : kv = (k, x) := by
    cases kv
    simp_all
  exact hkv ▸ hmem

/-- Case analysis on one processLink step, seen from the visited map:
either the state is unchanged; or a record of depth currentDepth+1 is
inserted at a fresh key (an unresolved or denied raw link text with a
null file, or a resolved path equal to its file's path); or an existing
record is updated preserving its file and depth, with hasFullReference
either preserved or set to true. -/
theorem processLink_spec (v : Vault) (acl : PathACL)
    (pats : List (String → Bool)) (cp : String) (cd : Nat)
    (st : BfsState) (l : LinkCache) :
    processLink v acl pats cp cd st l = st ∨
    (∃ k e, (processLink v acl pats cp cd st l).seen = mapSet st.seen k e ∧
      mapGet st.seen k = none ∧ e.depth = cd + 1 ∧
      (e.file = none ∨ ∃ tf, e.file = some tf ∧ tf.path = k)) ∨
    (∃ k ref ref', mapGet st.seen k = some ref ∧
      (processLink v acl pats cp cd st l).seen = mapSet st.seen k ref' ∧
      ref'.file = ref.file ∧ ref'.depth = ref.depth ∧
      (ref'.hasFullReference = ref.hasFullReference ∨
        ref'.hasFullReference = true)) := by
  by_cases h1 : shouldExcludeLink l pats
  · left
    simp [processLink, h1]
  · by_cases h2 : mapHas st.seen l.link
    · left
      simp [processLink, h1, h2]
    · have h2' : mapGet st.seen l.link = none := by
        have hiso := mapHas_eq_isSome st.seen l.link
        rw [Bool.not_eq_true] at h2
        rw [h2] at hiso
        exact Option.not_isSome_iff_eq_none.1 (by simp [← hiso])
      cases hdest : getFirstLinkpathDest v (parseLinkReference l.link).1 cp with
      | none =>
          right
          left
          refine ⟨l.link,
            { subpaths := [], hasFullReference := false, file := none,
              depth := cd + 1 }, ?_, h2', rfl, Or.inl rfl⟩
          simp [processLink, h1, h2, hdest]
      | some targetFile =>
          cases hacl : checkReadAccess acl targetFile.path with
          | error e =>
              right
              left
              refine ⟨l.link,
                { subpaths := [], hasFullReference := false, file := none,
                  depth := cd + 1 }, ?_, h2', rfl, Or.inl rfl⟩
              simp [processLink, h1, h2, hdest, hacl]
          | ok u =>
              cases hget : mapGet st.seen targetFile.path with
              | some ref =>
                  right
                  right
                  cases hsp : (parseLinkReference l.link).2 with
                  | none =>
                      refine ⟨targetFile.path, ref,
                        { ref with hasFullReference := true }, hget, ?_,
                        rfl, rfl, Or.inr rfl⟩
                      simp [processLink, h1, h2, hdest, hacl, hget, hsp]
                  | some subpath =>
                      refine ⟨targetFile.path, ref,
                        { ref with
                          subpaths := setAdd ref.subpaths subpath }, hget, ?_,
                        rfl, rfl, Or.inl rfl⟩
                      simp [processLink, h1, h2, hdest, hacl, hget, hsp]
              | none =>
                  right
                  left
                  cases hsp : (parseLinkReference l.link).2 with
                  | none =>
                      refine ⟨targetFile.path,
                        { subpaths := [], hasFullReference := true,
                          file := some targetFile, depth := cd + 1 },
                        ?_, hget, rfl, Or.inr ⟨targetFile, rfl, rfl⟩⟩
                      simp [processLink, h1, h2, hdest, hacl, hget, hsp]
                  | some subpath =>
                      refine ⟨targetFile.path,
                        { subpaths := setAdd [] subpath,
                          hasFullReference := false,
                          file := some targetFile, depth := cd + 1 },
                        ?_, hget, rfl, Or.inr ⟨targetFile, rfl, rfl⟩⟩
                      simp [processLink, h1, h2, hdest, hacl, hget, hsp]

theorem foldl_processLink_preserves (v : Vault) (acl : PathACL)
    (pats : List (String → Bool)) (cp : String) (cd : Nat)
    (P : EmbeddedNotes → Prop)
    (hstep : ∀ st l, P st.seen →
      P ((processLink v acl pats cp cd st l).seen)) :
    ∀ (links : List LinkCache) (st : BfsState), P st.seen →
      P ((links.foldl (processLink v acl pats cp cd) st).seen) := by
  intro links
  induction links with
  | nil => intro st h; exact h
  | cons l rest ih =>
      intro st h
      exact ih (processLink v acl pats cp cd st l) (hstep st l h)

theorem bfsLoop_preserves (v : Vault) (acl : PathACL)
    (pats : List (String → Bool)) (includeLinks : Bool)
    (P : EmbeddedNotes → Prop)
    (hstep : ∀ cp cd st l, cd < MAX_DEPTH → P st.seen →
      P ((processLink v acl pats cp cd st l).seen)) :
    ∀ st, P st.seen → P (bfsLoop v acl pats includeLinks st) := by
  intro st
  induction st using bfsLoop.induct v acl pats includeLinks with
  | case1 seen =>
      intro h
      rw [bfsLoop]
      exact h
  | case2 seen item rest hfile ih =>
      intro h
      rw [bfsLoop]
      simp only [hfile]
      exact ih h
  | case3 seen item rest currentFile hfile hdepth ih =>
      intro h
      rw [bfsLoop]
      simp only [hfile, if_pos hdepth]
      exact ih h
  | case4 seen item rest currentFile hfile hdepth hcache ih =>
      intro h
      rw [bfsLoop]
      simp only [hfile, if_neg hdepth, hcache]
      exact ih h
  | case5 seen item rest currentFile hfile hdepth fileCache hcache allLinks ih =>
      intro h
      rw [bfsLoop]
      simp only [hfile, if_neg hdepth, hcache]
      refine ih ?_
      refine foldl_processLink_preserves v acl pats currentFile.path
        item.depth P (fun st' l hP => ?_) _ _ h
      exact hstep currentFile.path item.depth st' l (by omega) hP

/-- Every record of the visited map lies within the depth bound. -/
def SeenDepthLe (m : EmbeddedNotes) : Prop :=
  ∀ kv ∈ m, (kv : String × EmbeddedLink).2.depth ≤ MAX_DEPTH

/-- The keys of the visited map are pairwise distinct. -/
def SeenKeysNodup (m : EmbeddedNotes) : Prop :=
  (m.map (fun kv => kv.1)).Nodup

/-- Every record holding a resolved file is keyed by that file's path. -/
def SeenCoherent (m : EmbeddedNotes) : Prop :=
  ∀ kv ∈ m, ∀ f : VaultFile,
    (kv : String × EmbeddedLink).2.file = some f → f.path = kv.1

theorem seenDepthLe_step (v : Vault) (acl : PathACL)
    (pats : List (String → Bool)) (cp : String) (cd : Nat)
    (st : BfsState) (l : LinkCache) (hcd : cd < MAX_DEPTH)
    (h : SeenDepthLe st.seen) :
    SeenDepthLe ((processLink v acl pats cp cd st l).seen) := by
  rcases processLink_spec v acl pats cp cd st l with heq |
    ⟨k, e, hseen, _, hdep, _⟩ | ⟨k, ref, ref', hget, hseen, _, hdep, _⟩
  · rw [heq]
    exact h
  · rw [hseen]
    intro kv hkv
    rcases mem_mapSet _ _ _ _ hkv with rfl | hm
    · simpa [hdep] using hcd
    · exact h kv hm
  · rw [hseen]
    intro kv hkv
    rcases mem_mapSet _ _ _ _ hkv with rfl | hm
    · have := h (k, ref) (mapGet_mem _ _ _ hget)
      simpa [hdep] using this
    · exact h kv hm

theorem seenKeysNodup_step (v : Vault) (acl : PathACL)
    (pats : List (String → Bool)) (cp : String) (cd : Nat)
    (st : BfsState) (l : LinkCache)
    (h : SeenKeysNodup st.seen) :
    SeenKeysNodup ((processLink v acl pats cp cd st l).seen) := by
  rcases processLink_spec v acl pats cp cd st l with heq |
    ⟨k, e, hseen, _, _, _⟩ | ⟨k, ref, ref', _, hseen, _, _, _⟩
  · rw [heq]
    exact h
  · rw [hseen]
    exact mapSet_keys_nodup _ _ _ h
  · rw [hseen]
    exact mapSet_keys_nodup _ _ _ h

theorem seenCoherent_step (v : Vault) (acl : PathACL)
    (pats : List (String → Bool)) (cp : String) (cd : Nat)
    (st : BfsState) (l : LinkCache)
    (h : SeenCoherent st.seen) :
    SeenCoherent ((processLink v acl pats cp cd st l).seen) := by
  rcases processLink_spec v acl pats cp cd st l with heq |
    ⟨k, e, hseen, _, _, hfile⟩ | ⟨k, ref, ref', hget, hseen, hfile, _, _⟩
  · rw [heq]
    exact h
  · rw [hseen]
    intro kv hkv f hf
    rcases mem_mapSet _ _ _ _ hkv with rfl | hm
    · rcases hfile with hnone | ⟨tf, htf, hpath⟩
      · simp only [hnone] at hf
        cases hf
      · simp only [htf] at hf
        cases hf
        exact hpath
    · exact h kv hm f hf
  · rw [hseen]
    intro kv hkv f hf
    rcases mem_mapSet _ _ _ _ hkv with rfl | hm
    · have := h (k, ref) (mapGet_mem _ _ _ hget) f
      exact this (by rw [← hfile]; exact hf)
    · exact h kv hm f hf

/-- C3: breadth-first expansion is depth-bounded: the loop never gathers
the outgoing references of a queue entry whose depth has reached
MAX_DEPTH = 2 (the popped entry is skipped and the visited map is
unchanged), and every record ever placed in the visited map of
collectLinkedFiles has depth at most MAX_DEPTH.  Termination for
arbitrary vaults, including cyclic link graphs, is established once and
for all by the definition of bfsLoop, whose well-founded recursion on
bfsMeasure Lean accepts. -/
theorem collectLinkedFiles_depth_bounded (v : Vault) (acl : PathACL)
    (pats : List (String → Bool)) (includeLinks : Bool)
    (sourceFile : VaultFile) :
    (∀ kv ∈ collectLinkedFiles v acl pats includeLinks sourceFile,
      (kv : String × EmbeddedLink).2.depth ≤ MAX_DEPTH) ∧
    (∀ (seen : EmbeddedNotes) (item : QueueItem) (rest : List QueueItem),
      item.depth ≥ MAX_DEPTH →
      bfsLoop v acl pats includeLinks { seen := seen, queue := item :: rest } =
        bfsLoop v acl pats includeLinks { seen := seen, queue := rest }) := by
  constructor
  · refine bfsLoop_preserves v acl pats includeLinks SeenDepthLe
      (fun cp cd st l hcd h => seenDepthLe_step v acl pats cp cd st l hcd h)
      _ ?_
    intro kv hkv
    simp only [List.mem_singleton] at hkv
    subst hkv
    simp [MAX_DEPTH]
  · intro seen item rest hdepth
    rw [bfsLoop]
    cases hfile : item.file with
    | none => rfl
    | some f => simp [hfile, if_pos hdepth]

/-- An unrestricted ACL for concrete test vaults. -/
def openAcl : PathACL :=
  { forbidden := [], readOnly := [], writable := [] }

/-- File a.md of the cyclic test vault. -/
def cyclicFileA : VaultFile :=
  { path := "a.md", extension := "md", content := "A" }

/-- File b.md of the cyclic test vault. -/
def cyclicFileB : VaultFile :=
  { path := "b.md", extension := "md", content := "B" }

/-- A two-note vault whose notes embed each other, forming a cycle. -/
def cyclicVault : Vault :=
  { files := [cyclicFileA, cyclicFileB],
    folders := [],
    cache := fun p =>
      if p = "a.md" then
        some { links := [],
               embeds := [{ link := "b.md", displayText := some "b" }],
               headings := [], blocks := [], tags := [] }
      else if p = "b.md" then
        some { links := [],
               embeds := [{ link := "a.md", displayText := some "a" }],
               headings := [], blocks := [], tags := [] }
      else none,
    resolve := fun link _ =>
      if link = "a.md" then some 0
      else if link = "b.md" then some 1
      else none }

/-- The visited record the cyclic vault's expansion creates for b.md. -/
def cyclicEntryB : EmbeddedLink :=
  { subpaths := [], hasFullReference := true, file := some cyclicFileB,
    depth := 1 }

/-- Witness for C3 on the cyclic two-note vault: expanding a.md places
b.md in the visited map at depth 1, and the depth bound holds there. -/
theorem collectLinkedFiles_depth_bounded_witness :
    ("b.md", cyclicEntryB) ∈
      collectLinkedFiles cyclicVault openAcl [] false cyclicFileA ∧
    (("b.md", cyclicEntryB) : String × EmbeddedLink).2.depth ≤ MAX_DEPTH := by
  have hmem : ("b.md", cyclicEntryB) ∈
      collectLinkedFiles cyclicVault openAcl [] false cyclicFileA := by
    simp [collectLinkedFiles, bfsLoop, processLink, shouldExcludeLink,
      parseLinkReference, getFirstLinkpathDest, checkReadAccess, matchesAny,
      mapHas, mapGet, mapSet, setAdd, cyclicVault, cyclicFileA, cyclicFileB,
      cyclicEntryB, openAcl, MAX_DEPTH]
  exact ⟨hmem, (collectLinkedFiles_depth_bounded cyclicVault openAcl []
    false cyclicFileA).1 _ hmem⟩

/-- Does this visited entry hold the resolved file at path p? -/
def entryHoldsFile (p : String) (kv : String × EmbeddedLink) : Bool :=
  match kv.2.file with
  | some f => f.path = p
  | none => false

theorem filter_entryHoldsFile_le_one (m : EmbeddedNotes) (p : String)
    (hnodup : SeenKeysNodup m) (hcoh : SeenCoherent m) :
    (m.filter (entryHoldsFile p)).length ≤ 1 := by
  induction m with
  | nil => simp
  | cons kv t ih =>
      have hnodup' : SeenKeysNodup t := by
        simp only [SeenKeysNodup, List.map_cons, List.nodup_cons] at hnodup
        exact hnodup.2
      have hcoh' : SeenCoherent t := fun kv' h f hf =>
        hcoh kv' (List.mem_cons_of_mem _ h) f hf
      by_cases hp : entryHoldsFile p kv
      · have hkey : kv.1 = p := by
          simp only [entryHoldsFile] at hp
          cases hfile : kv.2.file with
          | none => rw [hfile] at hp; cases hp
          | some f =>
              rw [hfile] at hp
              simp only [decide_eq_true_eq] at hp
              rw [← hp]
              exact (hcoh kv (List.mem_cons_self _ _) f hfile).symm
        have hrest : t.filter (entryHoldsFile p) = [] := by
          rw [List.filter_eq_nil_iff]
          intro kv' hmem hp'
          have hkey' : kv'.1 = p := by
            simp only [entryHoldsFile] at hp'
            cases hfile : kv'.2.file with
            | none => rw [hfile] at hp'; cases hp'
            | some f =>
                rw [hfile] at hp'
                simp only [decide_eq_true_eq] at hp'
                rw [← hp']
                exact (hcoh' kv' hmem f hfile).symm
          simp only [SeenKeysNodup, List.map_cons, List.nodup_cons] at hnodup
          exact hnodup.1 (by
            rw [hkey, ← hkey']
            exact List.mem_map.2 ⟨kv', hmem, rfl⟩)
        simp [List.filter_cons, hp, hrest]
      · simp only [List.filter_cons, hp]
        simpa using ih hnodup' hcoh'

/-- C4: within one collection, the visited map binds each key at most
once, every entry holding a resolved file is keyed by that file's path,
and hence at most one entry holds a given resolved path, both in the
collected map and in the map phase 2 iterates over after the source entry
is removed; phase 2 reads and emits each entry's file content once, so
each distinct resolved file is read and embedded at most once. -/
theorem collectLinkedFiles_no_duplicate_entries (v : Vault) (acl : PathACL)
    (pats : List (String → Bool)) (includeLinks : Bool)
    (sourceFile : VaultFile) (p : String) :
    SeenKeysNodup (collectLinkedFiles v acl pats includeLinks sourceFile) ∧
    SeenCoherent (collectLinkedFiles v acl pats includeLinks sourceFile) ∧
    ((collectLinkedFiles v acl pats includeLinks sourceFile).filter
      (entryHoldsFile p)).length ≤ 1 ∧
    ((mapDelete (collectLinkedFiles v acl pats includeLinks sourceFile)
        sourceFile.path).filter (entryHoldsFile p)).length ≤ 1 := by
  have hnodup : SeenKeysNodup
      (collectLinkedFiles v acl pats includeLinks sourceFile) := by
    refine bfsLoop_preserves v acl pats includeLinks SeenKeysNodup
      (fun cp cd st l _ h => seenKeysNodup_step v acl pats cp cd st l h)
      _ ?_
    simp [SeenKeysNodup]
  have hcoh : SeenCoherent
      (collectLinkedFiles v acl pats includeLinks sourceFile) := by
    refine bfsLoop_preserves v acl pats includeLinks SeenCoherent
      (fun cp cd st l _ h => seenCoherent_step v acl pats cp cd st l h)
      _ ?_
    intro kv hkv f hf
    simp only [List.mem_singleton] at hkv
    subst hkv
    simp only [Option.some.injEq] at hf
    rw [← hf]
  have hle := filter_entryHoldsFile_le_one _ p hnodup hcoh
  refine ⟨hnodup, hcoh, hle, le_trans ?_ hle⟩
  exact ((List.filter_sublist _).filter _).length_le

/-- Witness for C4 at the cyclic two-note vault and path b.md. -/
theorem collectLinkedFiles_no_duplicate_entries_witness :
    ((collectLinkedFiles cyclicVault openAcl [] false cyclicFileA).filter
      (entryHoldsFile "b.md")).length ≤ 1 :=
  (collectLinkedFiles_no_duplicate_entries cyclicVault openAcl [] false
    cyclicFileA "b.md").2.2.1

/-- The visited map holds an entry for p marked as a full reference. -/
def SeenFullRef (p : String) (m : EmbeddedNotes) : Prop :=
  ∃ e : EmbeddedLink, mapGet m p = some e ∧ e.hasFullReference = true

theorem seenFullRef_step (v : Vault) (acl : PathACL)
    (pats : List (String → Bool)) (cp : String) (cd : Nat)
    (st : BfsState) (l : LinkCache) (p : String)
    (h : SeenFullRef p st.seen) :
    SeenFullRef p ((processLink v acl pats cp cd st l).seen) := by
  obtain ⟨e0, hget0, hfull0⟩ := h
  rcases processLink_spec v acl pats cp cd st l with heq |
    ⟨k, e, hseen, hnew, _, _⟩ | ⟨k, ref, ref', hget, hseen, _, _, hfull⟩
  · rw [heq]
    exact ⟨e0, hget0, hfull0⟩
  · have hne : k ≠ p := fun hkp => by
      rw [hkp, hget0] at hnew
      cases hnew
    rw [hseen]
    exact ⟨e0, by rw [mapGet_mapSet_ne _ _ _ _ hne]; exact hget0, hfull0⟩
  · by_cases hkp : k = p
    · subst hkp
      rw [hget0] at hget
      cases hget
      rw [hseen]
      refine ⟨ref', mapGet_mapSet_self _ _ _, ?_⟩
      rcases hfull with hsame | htrue
      · rw [hsame]
        exact hfull0
      · exact htrue
    · rw [hseen]
      exact ⟨e0, by rw [mapGet_mapSet_ne _ _ _ _ hkp]; exact hget0, hfull0⟩

theorem processLink_full_reference_sets (v : Vault) (acl : PathACL)
    (pats : List (String → Bool)) (cp : String) (cd : Nat)
    (st : BfsState) (l : LinkCache) (targetFile : VaultFile)
    (hexcl : shouldExcludeLink l pats = false)
    (hnew : mapHas st.seen l.link = false)
    (hsub : (parseLinkReference l.link).2 = none)
    (hdest : getFirstLinkpathDest v (parseLinkReference l.link).1 cp =
      some targetFile)
    (hacl : checkReadAccess acl targetFile.path = .ok ()) :
    SeenFullRef targetFile.path
      ((processLink v acl pats cp cd st l).seen) := by
  cases hget : mapGet st.seen targetFile.path with
  | some ref =>
      refine ⟨{ ref with hasFullReference := true }, ?_, rfl⟩
      have hseen : (processLink v acl pats cp cd st l).seen =
          mapSet st.seen targetFile.path
            { ref with hasFullReference := true } := by
        simp [processLink, hexcl, hnew, hdest, hacl, hget, hsub]
      rw [hseen]
      exact mapGet_mapSet_self _ _ _
  | none =>
      refine ⟨{ subpaths := [], hasFullReference := true,
                file := some targetFile, depth := cd + 1 }, ?_, rfl⟩
      have hseen : (processLink v acl pats cp cd st l).seen =
          mapSet st.seen targetFile.path
            { subpaths := [], hasFullReference := true,
              file := some targetFile, depth := cd + 1 } := by
        simp [processLink, hexcl, hnew, hdest, hacl, hget, hsub]
      rw [hseen]
      exact mapGet_mapSet_self _ _ _

theorem expandCollectedContent_full_dominates (v : Vault)
    (m : EmbeddedNotes) (p : String) (e : EmbeddedLink) (f : VaultFile)
    (hnodup : SeenKeysNodup m) (hcoh : SeenCoherent m)
    (hget : mapGet m p = some e) (hfull : e.hasFullReference = true)
    (hfile : e.file = some f) (hext : f.extension = "md") :
    ∃ m₁ m₂, m = m₁ ++ (p, e) :: m₂ ∧
      expandCollectedContent v m =
        expandCollectedContent v m₁ ++
          (("===== BEGIN ENTRY: " ++ f.path ++ " =====") :: f.content ::
            "===== END ENTRY =====\n" :: expandCollectedContent v m₂) ∧
      (∀ kv ∈ m₁ ++ m₂, entryHoldsFile p kv = false) := by
  obtain ⟨m₁, m₂, hsplit⟩ := List.append_of_mem (mapGet_mem m p e hget)
  refine ⟨m₁, m₂, hsplit, ?_, ?_⟩
  · rw [hsplit]
    simp only [expandCollectedContent, List.flatMap_append,
      List.flatMap_cons]
    rw [show entryBlocks v (p, e).2 =
        ["===== BEGIN ENTRY: " ++ f.path ++ " =====", f.content,
          "===== END ENTRY =====\n"] by
      simp [entryBlocks, hfile, hext, hfull]]
    simp
  · intro kv hmem
    by_contra hpc
    have hp : entryHoldsFile p kv = true := by
      simpa using hpc
    have hkey : kv.1 = p := by
      simp only [entryHoldsFile] at hp
      cases hfg : kv.2.file with
      | none => rw [hfg] at hp; cases hp
      | some g =>
          rw [hfg] at hp
          simp only [decide_eq_true_eq] at hp
          have hmem' : kv ∈ m := by
            rw [hsplit]
            rcases List.mem_append.1 hmem with h | h
            · exact List.mem_append.2 (Or.inl h)
            · exact List.mem_append.2 (Or.inr (List.mem_cons_of_mem _ h))
          rw [← hp]
          exact (hcoh kv hmem' g hfg).symm
    rw [hsplit] at hnodup
    simp only [SeenKeysNodup, List.map_append, List.map_cons] at hnodup
    have := List.Nodup.not_mem (List.nodup_middle.1 hnodup)
    refine absurd ?_ this
    rw [← hkey]
    rcases List.mem_append.1 hmem with h | h
    · exact List.mem_append.2 (Or.inl (List.mem_map.2 ⟨kv, h, rfl⟩))
    · exact List.mem_append.2 (Or.inr (List.mem_map.2 ⟨kv, h, rfl⟩))

/-- C5 (amended): a full (subpath-free) reference marks its resolved
allowed target as hasFullReference provided it is not dropped by the
raw-link-text dedupe (its raw text must not already be a key of the
visited map when it is processed); the mark, once set, survives the rest
of the traversal; and phase 2 emits an entry so marked exactly once as
the whole file, with no entry of any other key holding the same resolved
file (hence none of its subpath excerpts are emitted). -/
theorem full_reference_dominates (v : Vault) (acl : PathACL)
    (pats : List (String → Bool)) (includeLinks : Bool) :
    (∀ (cp : String) (cd : Nat) (st : BfsState) (l : LinkCache)
        (targetFile : VaultFile),
      shouldExcludeLink l pats = false →
      mapHas st.seen l.link = false →
      (parseLinkReference l.link).2 = none →
      getFirstLinkpathDest v (parseLinkReference l.link).1 cp =
        some targetFile →
      checkReadAccess acl targetFile.path = .ok () →
      SeenFullRef targetFile.path
        ((processLink v acl pats cp cd st l).seen)) ∧
    (∀ (st : BfsState) (p : String), SeenFullRef p st.seen →
      SeenFullRef p (bfsLoop v acl pats includeLinks st)) ∧
    (∀ (m : EmbeddedNotes) (p : String) (e : EmbeddedLink) (f : VaultFile),
      SeenKeysNodup m → SeenCoherent m →
      mapGet m p = some e → e.hasFullReference = true →
      e.file = some f → f.extension = "md" →
      ∃ m₁ m₂, m = m₁ ++ (p, e) :: m₂ ∧
        expandCollectedContent v m =
          expandCollectedContent v m₁ ++
            (("===== BEGIN ENTRY: " ++ f.path ++ " =====") :: f.content ::
              "===== END ENTRY =====\n" :: expandCollectedContent v m₂) ∧
        (∀ kv ∈ m₁ ++ m₂, entryHoldsFile p kv = false)) := by
  refine ⟨?_, ?_, ?_⟩
  · intro cp cd st l targetFile hexcl hnew hsub hdest hacl
    exact processLink_full_reference_sets v acl pats cp cd st l targetFile
      hexcl hnew hsub hdest hacl
  · intro st p h
    exact bfsLoop_preserves v acl pats includeLinks (SeenFullRef p)
      (fun cp cd st' l _ h' => seenFullRef_step v acl pats cp cd st' l p h')
      st h
  · intro m p e f hnodup hcoh hget hfull hfile hext
    exact expandCollectedContent_full_dominates v m p e f hnodup hcoh hget
      hfull hfile hext

/-- File A.md of the counterexample vault: its note embeds B.md#H first
and B.md (a full reference) second. -/
def c5FileA : VaultFile :=
  { path := "A.md", extension := "md", content := "A body" }

/-- File B.md of the counterexample vault. -/
def c5FileB : VaultFile :=
  { path := "B.md", extension := "md", content := "# H\nhello" }

/-- A vault on which the raw-link-text dedupe drops a full reference:
A.md references B.md#H and then B.md; when the embed with the subpath is
processed first, the visited key B.md exists by the time the full
reference B.md is examined, and the full reference is skipped. -/
def c5Vault : Vault :=
  { files := [c5FileA, c5FileB],
    folders := [],
    cache := fun p =>
      if p = "A.md" then
        some { links := [],
               embeds := [{ link := "B.md#H", displayText := some "B" },
                          { link := "B.md", displayText := some "B" }],
               headings := [], blocks := [], tags := [] }
      else if p = "B.md" then
        some { links := [], embeds := [],
               headings := [{ heading := "H", level := 1,
                              startOffset := 0, endOffset := 3 }],
               blocks := [], tags := [] }
      else none,
    resolve := fun link _ =>
      if link = "A.md" then some 0
      else if link = "B.md" then some 1
      else none }

/-- Counterexample to C5 as stated: on c5Vault, B.md is referenced by
both a subpath reference and a full reference, yet its visited entry is
not marked hasFullReference, and the expansion emits the B.md#H excerpt
and no whole-file entry for B.md. -/
theorem full_reference_dominates_counterexample :
    mapGet (collectLinkedFiles c5Vault openAcl [] false c5FileA) "B.md" =
      some { subpaths := ["H"], hasFullReference := false,
             file := some c5FileB, depth := 1 } ∧
    (expandCollectedContent c5Vault
        (mapDelete (collectLinkedFiles c5Vault openAcl [] false c5FileA)
          "A.md")).count "===== BEGIN ENTRY: B.md#H =====" = 1 ∧
    (expandCollectedContent c5Vault
        (mapDelete (collectLinkedFiles c5Vault openAcl [] false c5FileA)
          "A.md")).count "===== BEGIN ENTRY: B.md =====" = 0 := by
  have hcol : collectLinkedFiles c5Vault openAcl [] false c5FileA =
      [("A.md", { subpaths := [], hasFullReference := true,
                  file := some c5FileA, depth := 0 }),
       ("B.md", { subpaths := ["H"], hasFullReference := false,
                  file := some c5FileB, depth := 1 })] := by
    simp [collectLinkedFiles, bfsLoop, processLink, shouldExcludeLink,
      parseLinkReference, getFirstLinkpathDest, checkReadAccess, matchesAny,
      mapHas, mapGet, mapSet, setAdd, c5Vault, c5FileA, c5FileB, openAcl,
      MAX_DEPTH]
  have hexp : expandCollectedContent c5Vault
      (mapDelete (collectLinkedFiles c5Vault openAcl [] false c5FileA)
        "A.md") =
      ["===== BEGIN ENTRY: B.md#H =====", "hello",
       "===== END ENTRY =====\n"] := by
    rw [hcol]
    decide
  refine ⟨?_, ?_, ?_⟩
  · rw [hcol]
    simp [mapGet]
  · rw [hexp]
    simp [List.count_cons]
  · rw [hexp]
    simp [List.count_cons]

/-- A visited entry for B.md carrying both the full-reference mark and a
collected subpath. -/
def eBfull : EmbeddedLink :=
  { subpaths := ["H"], hasFullReference := true, file := some c5FileB,
    depth := 1 }

/-- Witness for C5 (amended), emission part: an entry marked with a full
reference and holding a subpath is emitted once as the whole file and
contributes no subpath excerpt. -/
theorem full_reference_dominates_witness :
    ∃ m₁ m₂,
      [("B.md", eBfull)] = m₁ ++ ("B.md", eBfull) :: m₂ ∧
      expandCollectedContent c5Vault [("B.md", eBfull)] =
        expandCollectedContent c5Vault m₁ ++
          (("===== BEGIN ENTRY: " ++ c5FileB.path ++ " =====") ::
            c5FileB.content :: "===== END ENTRY =====\n" ::
              expandCollectedContent c5Vault m₂) ∧
      (∀ kv ∈ m₁ ++ m₂, entryHoldsFile "B.md" kv = false) := by
  refine (full_reference_dominates c5Vault openAcl [] false).2.2
    [("B.md", eBfull)] "B.md" eBfull c5FileB
    (by simp [SeenKeysNodup]) ?_ (by decide) (by decide) (by decide)
    (by decide)
  intro kv hmem f hf
  simp only [List.mem_singleton] at hmem
  subst hmem
  simp only [eBfull, Option.some.injEq] at hf
  rw [← hf]
  rfl

/-! ## Note CRUD (vaultasmcp-NoteHandler.ts) -/

/-- Errors thrown by the note handlers.  The source throws Error values
whose messages distinguish the cases; the payloads here carry the same
information. -/
inductive VaultError where
  | acl (e : AclError)
  | notFound (path : String)
  | alreadyExists (path : String)
  | dirNotFound (path : String)
  | contentRequired
deriving DecidableEq, Repr

/-- Split a character list at slashes. -/
def splitOnSlash : List Char → List (List Char)
  | [] => [[]]
  | '/' :: cs => [] :: splitOnSlash cs
  | c :: cs =>
      match splitOnSlash cs with
      | [] => [[c]]
      | seg :: rest => (c :: seg) :: rest

/-- Modelled from the spec: Obsidian's normalizePath (an external API the
handlers call first on every path argument); per the data model a
normalized path has no leading or trailing slash, no empty and no dot
segments. -/
def normalizePath (p : String) : String :=
  String.intercalate "/"
    (((splitOnSlash p.toList).map (fun seg => (⟨seg⟩ : String))).filter
      (fun s => s ≠ "" && s ≠ "."))

/-- NoteHandler.getFileWithAclCheck: normalize, check the ACL (write or
read), fetch, and require an existing file. -/
def getFileWithAclCheck (v : Vault) (acl : PathACL) (path : String)
    (write : Bool := false) : Except VaultError VaultFile :=
  let normalizedPath := normalizePath path
  match (if write then checkWriteAccess acl normalizedPath
         else checkReadAccess acl normalizedPath) with
  | .error e => .error (.acl e)
  | .ok _ =>
      match getFile v normalizedPath with
      | some file => .ok file
      | none => .error (.notFound normalizedPath)

/-- NoteHandler.readNote: read access, then cachedRead. -/
def readNote (v : Vault) (acl : PathACL) (path : String) :
    Except VaultError String :=
  match getFileWithAclCheck v acl path with
  | .error e => .error e
  | .ok file => .ok file.content

/-- NoteHandler.readNoteWithEmbeds: read access on the main note, read
its content, compile the exclude patterns (skipping invalid ones), then
expand linked files. -/
def readNoteWithEmbeds (v : Vault) (acl : PathACL)
    (compile : String → Option (String → Bool)) (path : String)
    (excludePatterns : Option (List String)) (includeLinks : Bool := false) :
    Except VaultError String :=
  match getFileWithAclCheck v acl path with
  | .error e => .error e
  | .ok file =>
      let compiledPatterns :=
        compileExcludePatterns compile (excludePatterns.getD [])
      .ok (expandLinkedFiles v acl file file.content compiledPatterns
        includeLinks)

/-- C6: the source content is always a prefix of the expansion result;
when nothing is collected (in particular when the source note's cache
has no links and no embeds, or no cache at all) the content is returned
unchanged with no trailing section; when something is collected the
result is exactly the content, the separator line, and the joined
entries. -/
theorem expandLinkedFiles_output_shape (v : Vault) (acl : PathACL)
    (sourceFile : VaultFile) (content : String)
    (pats : List (String → Bool)) (includeLinks : Bool) :
    (∃ t, expandLinkedFiles v acl sourceFile content pats includeLinks =
      content ++ t) ∧
    (expandCollectedContent v
        (mapDelete (collectLinkedFiles v acl pats includeLinks sourceFile)
          sourceFile.path) = [] →
      expandLinkedFiles v acl sourceFile content pats includeLinks =
        content) ∧
    (∀ fc, v.cache sourceFile.path = some fc →
      expandCollectedContent v
        (mapDelete (collectLinkedFiles v acl pats includeLinks sourceFile)
          sourceFile.path) ≠ [] →
      expandLinkedFiles v acl sourceFile content pats includeLinks =
        content ++ "\n----- EMBEDDED/LINKED CONTENT -----\n" ++
          String.intercalate "\n"
            (expandCollectedContent v
              (mapDelete
                (collectLinkedFiles v acl pats includeLinks sourceFile)
                sourceFile.path))) ∧
    (∀ fc, v.cache sourceFile.path = some fc → fc.links = [] →
      fc.embeds = [] →
      expandLinkedFiles v acl sourceFile content pats includeLinks =
        content) := by
  have hmain : ∀ fc, v.cache sourceFile.path = some fc →
      expandLinkedFiles v acl sourceFile content pats includeLinks =
        (if (expandCollectedContent v
            (mapDelete (collectLinkedFiles v acl pats includeLinks
              sourceFile) sourceFile.path)).length ≠ 0 then
          content ++ "\n----- EMBEDDED/LINKED CONTENT -----\n" ++
            String.intercalate "\n"
              (expandCollectedContent v
                (mapDelete (collectLinkedFiles v acl pats includeLinks
                  sourceFile) sourceFile.path))
        else content) := by
    intro fc hc
    simp [expandLinkedFiles, hc]
  refine ⟨?_, ?_, ?_, ?_⟩
  · cases hc : v.cache sourceFile.path with
    | none =>
        refine ⟨"", ?_⟩
        simp [expandLinkedFiles, hc]
    | some fc =>
        rw [hmain fc hc]
        by_cases hlen : (expandCollectedContent v
            (mapDelete (collectLinkedFiles v acl pats includeLinks
              sourceFile) sourceFile.path)).length ≠ 0
        · rw [if_pos hlen]
          exact ⟨_, by rw [String.append_assoc]⟩
        · rw [if_neg hlen]
          exact ⟨"", by simp⟩
  · intro hempty
    cases hc : v.cache sourceFile.path with
    | none => simp [expandLinkedFiles, hc]
    | some fc =>
        rw [hmain fc hc, hempty]
        simp
  · intro fc hc hne
    rw [hmain fc hc, if_pos (by simpa using hne)]
  · intro fc hc hlinks hembeds
    have hcol : collectLinkedFiles v acl pats includeLinks sourceFile =
        [(sourceFile.path,
          { hasFullReference := true, subpaths := [],
            file := some sourceFile, depth := 0 })] := by
      rw [collectLinkedFiles]
      rw [bfsLoop]
      simp only [MAX_DEPTH, hc, hlinks, hembeds]
      norm_num
      rw [bfsLoop]
    rw [hmain fc hc, hcol]
    simp [mapDelete, expandCollectedContent]

/-- Witness for C6 on the cyclic vault: a.md embeds b.md, so content is
collected and the result is exactly the source content followed by the
separator line and the joined entries. -/
theorem expandLinkedFiles_output_shape_witness :
    expandLinkedFiles cyclicVault openAcl cyclicFileA "A" [] false =
        "A" ++
          "\n----- EMBEDDED/LINKED CONTENT -----\n" ++
          String.intercalate "\n"
            (expandCollectedContent cyclicVault
              (mapDelete
                (collectLinkedFiles cyclicVault openAcl [] false
                  cyclicFileA) "a.md")) := by
  refine (expandLinkedFiles_output_shape cyclicVault openAcl cyclicFileA
    "A" [] false).2.2.1
    { links := [],
      embeds := [{ link := "b.md", displayText := some "b" }],
      headings := [], blocks := [], tags := [] } rfl ?_
  have hcol : collectLinkedFiles cyclicVault openAcl [] false cyclicFileA =
      [("a.md", { subpaths := [], hasFullReference := true,
                  file := some cyclicFileA, depth := 0 }),
       ("b.md", cyclicEntryB)] := by
    simp [collectLinkedFiles, bfsLoop, processLink, shouldExcludeLink,
      parseLinkReference, getFirstLinkpathDest, checkReadAccess, matchesAny,
      mapHas, mapGet, mapSet, setAdd, cyclicVault, cyclicFileA, cyclicFileB,
      cyclicEntryB, openAcl, MAX_DEPTH]
  rw [hcol]
  decide

theorem findIdx?_eq_some_of_min {α} (l : List α) (p : α → Bool) (i : Nat)
    (x : α) (hget : l.get? i = some x) (hp : p x = true)
    (hmin : ∀ j y, j < i → l.get? j = some y → p y = false) :
    l.findIdx? p = some i := by
  induction l generalizing i with
  | nil => simp at hget
  | cons a t ih =>
      cases i with
      | zero =>
          simp only [List.get?_cons_zero, Option.some.injEq] at hget
          subst hget
          simp [List.findIdx?_cons, hp]
      | succ n =>
          have ha : p a = false := hmin 0 a (Nat.succ_pos n) rfl
          have ht : t.findIdx? p = some n := by
            refine ih n (by simpa using hget) ?_
            intro j y hj hy
            exact hmin (j + 1) y (Nat.succ_lt_succ hj) (by simpa using hy)
          simp [List.findIdx?_cons, ha, ht]

/-- C7: heading-subpath extraction compares the percent-decoded,
case- and punctuation-normalized subpath with each heading normalized
the same way.  If some heading matches, and i is the least matching
index, the result is the trimmed substring of the file content from just
after the matched heading line (its cached end offset) to the start
offset of the next heading of less or equal level, or to the end of the
content when there is none.  If no heading matches, or a block-id
subpath names an unknown block, the result is the empty string. -/
theorem extractSubpathContent_spec (v : Vault) (file : VaultFile)
    (fileContent : String) (subpath : String) (cache : FileCacheData)
    (hc : v.cache file.path = some cache) :
    (∀ i h, subpath.toList.head? ≠ some '^' →
      cache.headings.get? i = some h →
      normalizeHeading h.heading = normalizeHeading subpath →
      (∀ j h', j < i → cache.headings.get? j = some h' →
        normalizeHeading h'.heading ≠ normalizeHeading subpath) →
      extractSubpathContent v file fileContent subpath =
        jsTrim (jsSubstring fileContent h.endOffset
          (match (cache.headings.drop (i + 1)).find?
              (fun h' => h'.level ≤ h.level) with
            | some h' => h'.startOffset
            | none => fileContent.toList.length))) ∧
    (subpath.toList.head? ≠ some '^' →
      (∀ h ∈ cache.headings,
        normalizeHeading h.heading ≠ normalizeHeading subpath) →
      extractSubpathContent v file fileContent subpath = "") ∧
    (subpath.toList.head? = some '^' →
      cache.blocks.find?
        (fun kv => kv.1 = (⟨subpath.toList.drop 1⟩ : String)) = none →
      extractSubpathContent v file fileContent subpath = "") := by
  refine ⟨?_, ?_, ?_⟩
  · intro i h hcaret hget hmatch hmin
    have hidx : cache.headings.findIdx?
        (fun h' => normalizeHeading h'.heading = normalizeHeading subpath) =
          some i := by
      refine findIdx?_eq_some_of_min _ _ i h hget (by simp [hmatch]) ?_
      intro j y hj hy
      simpa using hmin j y hj hy
    simp only [extractSubpathContent, hc]
    rw [if_neg (by simpa using hcaret)]
    simp only [hidx, hget]
  · intro hcaret hnone
    have hidx : cache.headings.findIdx?
        (fun h' => normalizeHeading h'.heading = normalizeHeading subpath) =
          none := by
      refine List.findIdx?_eq_none_iff.mpr ?_
      intro x hx
      simpa using hnone x hx
    simp only [extractSubpathContent, hc]
    rw [if_neg (by simpa using hcaret)]
    simp only [hidx]
  · intro hcaret hblock
    simp only [extractSubpathContent, hc]
    rw [if_pos (by simpa using hcaret)]
    simp only [String.toList, List.drop_one] at hblock
    simp [hblock]

/-- Witness for C7: in B.md of the counterexample vault the heading H
matches the subpath H at index 0, and the extracted section is the
trimmed text after the heading line to the end of file. -/
theorem extractSubpathContent_spec_witness :
    extractSubpathContent c5Vault c5FileB "# H\nhello" "H" =
      jsTrim (jsSubstring "# H\nhello" 3 ("# H\nhello".toList.length)) := by
  have hspec := (extractSubpathContent_spec c5Vault c5FileB "# H\nhello" "H"
    { links := [], embeds := [],
      headings := [{ heading := "H", level := 1, startOffset := 0,
                     endOffset := 3 }],
      blocks := [], tags := [] } rfl).1 0
    { heading := "H", level := 1, startOffset := 0, endOffset := 3 }
    (by decide) (by decide) (by decide)
    (fun j h' hj hget => absurd hj (by omega))
  simpa using hspec

/-- Is pre a prefix of s (character lists)? -/
def listStartsWith : List Char → List Char → Bool
  | [], _ => true
  | _ :: _, [] => false
  | c :: cs, d :: ds => c = d && listStartsWith cs ds

/-- JS / Lean String.startsWith, on the character level. -/
def strStartsWith (s pre : String) : Bool :=
  listStartsWith pre.toList s.toList

/-- String.endsWith, on the character level. -/
def strEndsWith (s suffix : String) : Bool :=
  listStartsWith suffix.toList.reverse s.toList.reverse

/-- The extension of a path (the model of TFile.extension): the text
after the last dot of the last segment, or empty. -/
def pathExtension (p : String) : String :=
  let revSeg := p.toList.reverse.takeWhile (fun c => c ≠ '/')
  if revSeg.contains '.' then
    ⟨(revSeg.takeWhile (fun c => c ≠ '.')).reverse⟩
  else ""

/-- NoteHandler.createNote for a non-binary note created from content
(the template branch, which delegates to the external TemplateHandler,
is outside the scope of this embedding and corresponds to a template
argument of undefined).  Normalize the path and force the .md extension;
check write access; a missing or empty content fails (the JS falsy
check); an existing file or folder at the path fails; create the parent
folder when more than one segment and no folder exists; create the
file. -/
def createNote (v : Vault) (acl : PathACL) (path : String)
    (content : Option String) : Except VaultError (Vault × String) :=
  let np0 := normalizePath path
  let normalizedPath := if strEndsWith np0 ".md" then np0 else np0 ++ ".md"
  match checkWriteAccess acl normalizedPath with
  | .error e => .error (.acl e)
  | .ok _ =>
      match content with
      | none => .error .contentRequired
      | some c =>
          if c = "" then .error .contentRequired
          else
            if (getFile v normalizedPath).isSome ||
                v.folders.contains normalizedPath then
              .error (.alreadyExists normalizedPath)
            else
              let parts := splitOnSlash normalizedPath.toList
              let dir := String.intercalate "/"
                ((parts.dropLast).map (fun seg => (⟨seg⟩ : String)))
              let folders' :=
                if parts.length > 1 && !v.folders.contains dir then
                  v.folders ++ [dir]
                else v.folders
              let file : VaultFile :=
                { path := normalizedPath,
                  extension := pathExtension normalizedPath, content := c }
              .ok ({ v with
                      files := v.files ++ [file],
                      folders := folders' }, normalizedPath)

/-- NoteHandler.updateNote: write access, then replace the whole content
through vault.process. -/
def updateNote (v : Vault) (acl : PathACL) (path : String)
    (content : String) : Except VaultError (Vault × String) :=
  match getFileWithAclCheck v acl path true with
  | .error e => .error e
  | .ok file =>
      .ok ({ v with files := v.files.map (fun f =>
        if f.path = file.path then { f with content := content } else f) },
        file.path)

/-- NoteHandler.deleteNote: write access, then move the file to the
recoverable trash (it leaves the vault). -/
def deleteNote (v : Vault) (acl : PathACL) (path : String) :
    Except VaultError (Vault × String) :=
  match getFileWithAclCheck v acl path true with
  | .error e => .error e
  | .ok file =>
      .ok ({ v with files := v.files.filter (fun f =>
        !(f.path = file.path)) }, file.path)

theorem find?_append_none {α} {p : α → Bool} {l₁ l₂ : List α}
    (h : l₁.find? p = none) : (l₁ ++ l₂).find? p = l₂.find? p := by
  induction l₁ with
  | nil => simp
  | cons a t ih =>
      rw [List.find?_cons] at h
      rw [List.cons_append, List.find?_cons]
      cases hp : p a with
      | true => rw [hp] at h; cases h
      | false =>
          rw [hp] at h
          simpa using ih h

/-- C9 (amended with non-empty content): on an ACL-writable and readable
normalized path ending in .md where no file or folder exists, createNote
with non-empty content succeeds and readNote then returns exactly that
content; updateNote replaces the content exactly; deleteNote removes the
note and a subsequent readNote on the same path fails with the not-found
error. -/
theorem crud_roundtrip (v : Vault) (acl : PathACL) (path : String)
    (content content2 : String)
    (hmd : strEndsWith (normalizePath path) ".md" = true)
    (hw : checkWriteAccess acl (normalizePath path) = .ok ())
    (hr : checkReadAccess acl (normalizePath path) = .ok ())
    (hnofile : getFile v (normalizePath path) = none)
    (hnofolder : v.folders.contains (normalizePath path) = false)
    (hc : content ≠ "") :
    ∃ v1 v2 v3,
      createNote v acl path (some content) =
        .ok (v1, normalizePath path) ∧
      readNote v1 acl path = .ok content ∧
      updateNote v1 acl path content2 = .ok (v2, normalizePath path) ∧
      readNote v2 acl path = .ok content2 ∧
      deleteNote v2 acl path = .ok (v3, normalizePath path) ∧
      readNote v3 acl path = .error (.notFound (normalizePath path)) := by
  have hfind : v.files.find?
      (fun f => f.path = normalizePath path) = none := by
    simpa [getFile] using hnofile
  have hall : ∀ f ∈ v.files, (f.path = normalizePath path) = False := by
    intro f hf
    have := List.find?_eq_none.mp hfind f hf
    simpa using this
  set np := normalizePath path with hnp
  set f1 : VaultFile :=
    { path := np, extension := pathExtension np, content := content }
    with hf1
  set dir := String.intercalate "/"
    (((splitOnSlash np.toList).dropLast).map
      (fun seg => (⟨seg⟩ : String))) with hdir
  set folders' :=
    (if (splitOnSlash np.toList).length > 1 && !v.folders.contains dir then
      v.folders ++ [dir]
    else v.folders) with hfolders
  set v1 : Vault := { v with files := v.files ++ [f1], folders := folders' }
    with hv1
  set v2 : Vault := { v1 with files := v1.files.map (fun f =>
    if f.path = np then { f with content := content2 } else f) } with hv2
  set v3 : Vault := { v2 with files := v2.files.filter (fun f =>
    !(f.path = np)) } with hv3
  have hget1 : getFile v1 np = some f1 := by
    simp only [getFile, hv1]
    rw [find?_append_none hfind]
    simp [List.find?, hf1]
  have hmap_none : (v.files.map (fun f =>
      if f.path = np then { f with content := content2 } else f)).find?
        (fun f => f.path = np) = none := by
    rw [List.find?_eq_none]
    intro x hx
    obtain ⟨f, hfmem, hfx⟩ := List.mem_map.1 hx
    have hne := hall f hfmem
    rw [if_neg (by simp [hne])] at hfx
    subst hfx
    simp [hne]
  have hget2 : getFile v2 np =
      some { f1 with content := content2 } := by
    simp only [getFile, hv2, hv1, List.map_append]
    rw [find?_append_none hmap_none]
    simp [List.find?, hf1]
  refine ⟨v1, v2, v3, ?_, ?_, ?_, ?_, ?_, ?_⟩
  · simp only [createNote, ← hnp, hmd, if_true]
    rw [hw]
    rw [if_neg hc]
    rw [if_neg (by simp [hnofile]; simpa using hnofolder)]
  · simp only [readNote, getFileWithAclCheck, ← hnp]
    rw [if_neg Bool.false_ne_true, hr, hget1]
  · simp only [updateNote, getFileWithAclCheck, ← hnp, if_true]
    rw [hw, hget1]
  · simp only [readNote, getFileWithAclCheck, ← hnp]
    rw [if_neg Bool.false_ne_true, hr, hget2]
  · simp only [deleteNote, getFileWithAclCheck, ← hnp, if_true]
    rw [hw, hget2]
  · simp only [readNote, getFileWithAclCheck, ← hnp]
    rw [if_neg Bool.false_ne_true, hr]
    have hnone : getFile v3 np = none := by
      simp only [getFile, hv3]
      rw [List.find?_eq_none]
      intro x hx
      simp only [List.mem_filter] at hx
      simpa using hx.2
    rw [hnone]

/-- An empty vault. -/
def emptyVault : Vault :=
  { files := [], folders := [], cache := fun _ => none,
    resolve := fun _ _ => none }

/-- Counterexample to C9 as stated: with the empty content — a perfectly
writable, readable, fresh .md path — createNote fails with the
content-required error (the JS falsy check cannot distinguish an empty
string from a missing argument), so create followed by read does not
return the content. -/
theorem crud_roundtrip_counterexample :
    createNote emptyVault openAcl "a.md" (some "") =
      .error VaultError.contentRequired ∧
    strEndsWith (normalizePath "a.md") ".md" = true ∧
    checkWriteAccess openAcl (normalizePath "a.md") = .ok () ∧
    checkReadAccess openAcl (normalizePath "a.md") = .ok () ∧
    getFile emptyVault (normalizePath "a.md") = none ∧
    emptyVault.folders.contains (normalizePath "a.md") = false ∧
    (∀ r : Vault × String,
      createNote emptyVault openAcl "a.md" (some "") ≠ .ok r) := by
  refine ⟨rfl, by decide, rfl, rfl, rfl, rfl, ?_⟩
  intro r h
  rw [show createNote emptyVault openAcl "a.md" (some "") =
    .error VaultError.contentRequired from rfl] at h
  cases h

/-- Witness for C9 (amended) on the empty vault at path a.md with
contents x and y. -/
theorem crud_roundtrip_witness :
    ∃ v1 v2 v3,
      createNote emptyVault openAcl "a.md" (some "x") =
        .ok (v1, normalizePath "a.md") ∧
      readNote v1 openAcl "a.md" = .ok "x" ∧
      updateNote v1 openAcl "a.md" "y" = .ok (v2, normalizePath "a.md") ∧
      readNote v2 openAcl "a.md" = .ok "y" ∧
      deleteNote v2 openAcl "a.md" = .ok (v3, normalizePath "a.md") ∧
      readNote v3 openAcl "a.md" =
        .error (.notFound (normalizePath "a.md")) :=
  crud_roundtrip emptyVault openAcl "a.md" "x" "y" (by decide) rfl rfl rfl
    rfl (by decide)

/-! ## Enumeration tools (vaultasmcp-Tools.ts: searchNotes, listNotes,
listNotesByTag, getLinkedNotes) -/

/-- Is the needle an infix of the haystack (character lists)? -/
def listIsInfix (n : List Char) : List Char → Bool
  | [] => n.isEmpty
  | c :: t => listStartsWith n (c :: t) || listIsInfix n t

/-- The case-insensitive containment test of the text search:
content.toLowerCase().includes(text.toLowerCase()). -/
def strContainsLower (haystack needle : String) : Bool :=
  listIsInfix (needle.toList.map Char.toLower)
    (haystack.toList.map Char.toLower)

/-- MCPTools.normalizeTag: strip one leading hash. -/
def normalizeTag (tag : String) : String :=
  if strStartsWith tag "#" then ⟨tag.toList.drop 1⟩ else tag

/-- JS truthiness of an optional string argument: undefined and the
empty string are falsy. -/
def jsTruthy (o : Option String) : Bool :=
  o.getD "" ≠ ""

/-- Does the read ACL admit the path (the try/catch around
checkReadAccess in the enumeration filters)? -/
def aclOkBool (acl : PathACL) (p : String) : Bool :=
  match checkReadAccess acl p with
  | .ok _ => true
  | .error _ => false

/-- Insert into a sorted list of strings. -/
def insertSorted (x : String) : List String → List String
  | [] => [x]
  | y :: ys => if x ≤ y then x :: y :: ys else y :: insertSorted x ys

/-- The model of JS Array.prototype.sort on string arrays (lexicographic
comparison). -/
def sortStrings (l : List String) : List String :=
  l.foldr insertSorted []

theorem mem_insertSorted (x y : String) (l : List String) :
    y ∈ insertSorted x l ↔ y = x ∨ y ∈ l := by
  induction l with
  | nil => simp [insertSorted]
  | cons a t ih =>
      by_cases hle : x ≤ a
      · simp [insertSorted, hle]
      · simp only [insertSorted, if_neg hle, List.mem_cons, ih]
        tauto

theorem mem_sortStrings (y : String) (l : List String) :
    y ∈ sortStrings l ↔ y ∈ l := by
  induction l with
  | nil => simp [sortStrings]
  | cons a t ih =>
      simp only [sortStrings, List.foldr_cons, mem_insertSorted,
        List.mem_cons]
      rw [show List.foldr insertSorted [] t = sortStrings t from rfl] at *
      simp [ih]

/-- The parent directory of a normalized path (empty for root): used to
model the immediate-children relation of the Obsidian folder tree. -/
def parentPath (p : String) : String :=
  String.intercalate "/"
    (((splitOnSlash p.toList).dropLast).map (fun seg => (⟨seg⟩ : String)))

/-- MCPTools.searchNotes: markdown files, filtered by folder path
beginning (when a non-empty folder is given), by tag equality modulo
normalizeTag (when a tag is given), by case-insensitive content
containment (when a text is given); then ACL-forbidden results are
silently dropped and the remainder sorted.  The body has no failing
operation, so the call always succeeds. -/
def searchNotes (v : Vault) (acl : PathACL)
    (tag folder text : Option String) :
    Except VaultError (List String) :=
  let files0 := v.files.filter (fun f => f.extension == "md")
  let files1 :=
    if jsTruthy folder then
      files0.filter (fun f => strStartsWith f.path (folder.getD ""))
    else files0
  let files2 :=
    if jsTruthy tag then
      files1.filter (fun f =>
        match v.cache f.path with
        | none => false
        | some c => c.tags.any (fun t =>
            normalizeTag t == normalizeTag (tag.getD "")))
    else files1
  let files3 :=
    if jsTruthy text then
      files2.filter (fun f => strContainsLower f.content (text.getD ""))
    else files2
  let accessiblePaths :=
    (files3.map (fun f => f.path)).filter (aclOkBool acl)
  .ok (sortStrings accessiblePaths)

/-- MCPTools.listNotesByTag: markdown files holding any of the given
tags modulo normalizeTag; ACL-forbidden results silently dropped;
sorted.  Always succeeds. -/
def listNotesByTag (v : Vault) (acl : PathACL) (tags : List String) :
    Except VaultError (List String) :=
  let normalizedTags := tags.map normalizeTag
  let files := v.files.filter (fun f => f.extension == "md")
  let matchingFiles := files.filter (fun f =>
    match v.cache f.path with
    | none => false
    | some c =>
        normalizedTags.any (fun tag =>
          (c.tags.map normalizeTag).contains tag))
  let accessiblePaths :=
    (matchingFiles.map (fun f => f.path)).filter (aclOkBool acl)
  .ok (sortStrings accessiblePaths)

/-- MCPTools.listNotes: an empty path argument means the root (JS
truthiness); a non-root directory needs read access and must exist as a
folder; the immediate children are classified into markdown notes and
folders, silently skipping every child the read ACL denies; both lists
are sorted. -/
def listNotes (v : Vault) (acl : PathACL) (path : String) :
    Except VaultError (List String × List String) :=
  let normalizedPath := if path = "" then "" else normalizePath path
  match (if normalizedPath = "" then Except.ok ()
         else checkReadAccess acl normalizedPath) with
  | .error e => .error (.acl e)
  | .ok _ =>
      if normalizedPath = "" || v.folders.contains normalizedPath then
        let notes := (v.files.filter (fun f =>
          parentPath f.path == normalizedPath && f.extension == "md" &&
            aclOkBool acl f.path)).map (fun f => f.path)
        let folders := v.folders.filter (fun q =>
          parentPath q == normalizedPath && aclOkBool acl q)
        .ok (sortStrings notes, sortStrings folders)
      else
        .error (.dirNotFound normalizedPath)

/-- MCPTools.getLinkedNotes: read access on the argument (a denial is an
error of the call), the note must exist; each link and embed is resolved
with the raw link text and added to an insertion-ordered set unless
unresolved or denied by the read ACL (both silently skipped); sorted. -/
def getLinkedNotes (v : Vault) (acl : PathACL) (path : String) :
    Except VaultError (List String) :=
  match checkReadAccess acl path with
  | .error e => .error (.acl e)
  | .ok _ =>
      match getFile v path with
      | none => .error (.notFound path)
      | some _ =>
          match v.cache path with
          | none => .ok []
          | some cache =>
              let step := fun (links : List String) (lc : LinkCache) =>
                match getFirstLinkpathDest v lc.link path with
                | none => links
                | some targetFile =>
                    match checkReadAccess acl targetFile.path with
                    | .ok _ => setAdd links targetFile.path
                    | .error _ => links
              let links := cache.embeds.foldl step
                (cache.links.foldl step [])
              .ok (sortStrings links)

theorem getLinked_foldl_ok (v : Vault) (acl : PathACL) (path : String)
    (ls : List LinkCache) (init : List String)
    (hinit : ∀ q ∈ init, checkReadAccess acl q = .ok ()) :
    ∀ q ∈ ls.foldl (fun (links : List String) (lc : LinkCache) =>
        match getFirstLinkpathDest v lc.link path with
        | none => links
        | some targetFile =>
            match checkReadAccess acl targetFile.path with
            | .ok _ => setAdd links targetFile.path
            | .error _ => links) init,
      checkReadAccess acl q = .ok () := by
  induction ls generalizing init with
  | nil => exact hinit
  | cons lc rest ih =>
      intro q hq
      rw [List.foldl_cons] at hq
      refine ih _ ?_ q hq
      intro q' hq'
      cases hdest : getFirstLinkpathDest v lc.link path with
      | none =>
          simp only [hdest] at hq'
          exact hinit q' hq'
      | some targetFile =>
          simp only [hdest] at hq'
          cases hacl : checkReadAccess acl targetFile.path with
          | ok u =>
              simp only [hacl] at hq'
              rcases (by
                  by_cases hcon : init.contains targetFile.path
                  · rw [setAdd, if_pos hcon] at hq'
                    exact Or.inl hq'
                  · rw [setAdd, if_neg hcon] at hq'
                    rcases List.mem_append.1 hq' with h | h
                    · exact Or.inl h
                    · exact Or.inr (List.mem_singleton.1 h) :
                  q' ∈ init ∨ q' = targetFile.path) with hin | heq
              · exact hinit q' hin
              · rw [heq]
                cases u
                exact hacl
          | error e =>
              simp only [hacl] at hq'
              exact hinit q' hq'

/-- C8: for the enumeration tools, every returned item passes the read
ACL — a candidate the ACL denies is silently omitted — and an item
denial never fails the whole call: searchNotes and listNotesByTag always
succeed, and listNotes and getLinkedNotes can fail only on their
directory or note argument itself (denied or absent), never on a result
item. -/
theorem enumeration_silent_acl_filtering (v : Vault) (acl : PathACL)
    (tag folder text : Option String) (tags : List String)
    (path : String) (p : String) :
    (∀ res, searchNotes v acl tag folder text = .ok res → p ∈ res →
      checkReadAccess acl p = .ok ()) ∧
    (∃ res, searchNotes v acl tag folder text = .ok res) ∧
    (∀ res, listNotesByTag v acl tags = .ok res → p ∈ res →
      checkReadAccess acl p = .ok ()) ∧
    (∃ res, listNotesByTag v acl tags = .ok res) ∧
    (∀ res, listNotes v acl path = .ok res → p ∈ res.1 ++ res.2 →
      checkReadAccess acl p = .ok ()) ∧
    (∀ e, listNotes v acl path = .error e →
      (∃ a, e = .acl a ∧
        checkReadAccess acl (if path = "" then "" else normalizePath path) =
          .error a) ∨
      e = .dirNotFound (if path = "" then "" else normalizePath path)) ∧
    (∀ res, getLinkedNotes v acl path = .ok res → p ∈ res →
      checkReadAccess acl p = .ok ()) ∧
    (∀ e, getLinkedNotes v acl path = .error e →
      (∃ a, e = .acl a ∧ checkReadAccess acl path = .error a) ∨
      (e = .notFound path ∧ getFile v path = none)) := by
  have haclOk : ∀ q, aclOkBool acl q = true →
      checkReadAccess acl q = .ok () := by
    intro q h
    rw [aclOkBool] at h
    cases hacl : checkReadAccess acl q with
    | ok u => rfl
    | error e => rw [hacl] at h; cases h
  refine ⟨?_, ⟨_, rfl⟩, ?_, ⟨_, rfl⟩, ?_, ?_, ?_, ?_⟩
  · intro res hres hp
    simp only [searchNotes, Except.ok.injEq] at hres
    rw [← hres] at hp
    rw [mem_sortStrings] at hp
    exact haclOk p (List.of_mem_filter hp)
  · intro res hres hp
    simp only [listNotesByTag, Except.ok.injEq] at hres
    rw [← hres] at hp
    rw [mem_sortStrings] at hp
    exact haclOk p (List.of_mem_filter hp)
  · intro res hres hp
    simp only [listNotes] at hres
    cases hchk : (if (if path = "" then "" else normalizePath path) = ""
        then Except.ok () else checkReadAccess acl
          (if path = "" then "" else normalizePath path)) with
    | error e => rw [hchk] at hres; cases hres
    | ok u =>
        rw [hchk] at hres
        by_cases hdir : (decide
            ((if path = "" then "" else normalizePath path) = "") ||
              v.folders.contains
                (if path = "" then "" else normalizePath path)) = true
        · rw [if_pos hdir] at hres
          simp only [Except.ok.injEq] at hres
          rw [← hres] at hp
          rcases List.mem_append.1 hp with h | h
          · rw [mem_sortStrings] at h
            obtain ⟨f, hf, hfp⟩ := List.mem_map.1 h
            have := List.of_mem_filter hf
            simp only [Bool.and_eq_true] at this
            rw [← hfp]
            exact haclOk f.path this.2
          · rw [mem_sortStrings] at h
            have := List.of_mem_filter h
            simp only [Bool.and_eq_true] at this
            exact haclOk p this.2
        · rw [if_neg hdir] at hres
          cases hres
  · intro e he
    simp only [listNotes] at he
    cases hchk : (if (if path = "" then "" else normalizePath path) = ""
        then Except.ok () else checkReadAccess acl
          (if path = "" then "" else normalizePath path)) with
    | error a =>
        rw [hchk] at he
        simp only [Except.error.injEq] at he
        left
        refine ⟨a, he.symm, ?_⟩
        by_cases hroot : (if path = "" then "" else normalizePath path) = ""
        · rw [if_pos hroot] at hchk
          cases hchk
        · rw [if_neg hroot] at hchk
          exact hchk
    | ok u =>
        rw [hchk] at he
        by_cases hdir : (decide
            ((if path = "" then "" else normalizePath path) = "") ||
              v.folders.contains
                (if path = "" then "" else normalizePath path)) = true
        · rw [if_pos hdir] at he
          cases he
        · rw [if_neg hdir] at he
          simp only [Except.error.injEq] at he
          right
          exact he.symm
  · intro res hres hp
    simp only [getLinkedNotes] at hres
    cases hchk : checkReadAccess acl path with
    | error e => rw [hchk] at hres; cases hres
    | ok u =>
        rw [hchk] at hres
        cases hget : getFile v path with
        | none => rw [hget] at hres; cases hres
        | some file =>
            rw [hget] at hres
            cases hcache : v.cache path with
            | none =>
                rw [hcache] at hres
                simp only [Except.ok.injEq] at hres
                rw [← hres] at hp
                cases hp
            | some cache =>
                rw [hcache] at hres
                simp only [Except.ok.injEq] at hres
                rw [← hres] at hp
                rw [mem_sortStrings] at hp
                refine getLinked_foldl_ok v acl path cache.embeds _ ?_ p hp
                exact getLinked_foldl_ok v acl path cache.links []
                  (by intro q hq; cases hq)
  · intro e he
    simp only [getLinkedNotes] at he
    cases hchk : checkReadAccess acl path with
    | error a =>
        rw [hchk] at he
        simp only [Except.error.injEq] at he
        exact Or.inl ⟨a, he.symm, rfl⟩
    | ok u =>
        rw [hchk] at he
        cases hget : getFile v path with
        | none =>
            rw [hget] at he
            simp only [Except.error.injEq] at he
            exact Or.inr ⟨he.symm, rfl⟩
        | some file =>
            rw [hget] at he
            cases hcache : v.cache path with
            | none => rw [hcache] at he; cases he
            | some cache => rw [hcache] at he; cases he

/-- A two-file vault used to exercise the enumeration filters. -/
def enumVault : Vault :=
  { files := [{ path := "a.md", extension := "md", content := "alpha" },
              { path := "secrets/s.md", extension := "md",
                content := "hidden" }],
    folders := ["secrets"],
    cache := fun _ => none,
    resolve := fun _ _ => none }

/-- Witness for C8: under the scenario ACL, searchNotes on the two-file
vault succeeds, returns only a.md (the forbidden secrets/s.md is
silently omitted), and the returned item passes the read ACL. -/
theorem enumeration_silent_acl_filtering_witness :
    searchNotes enumVault scenarioAcl none none none = .ok ["a.md"] ∧
    checkReadAccess scenarioAcl "a.md" = .ok () := by
  have hres : searchNotes enumVault scenarioAcl none none none =
      .ok ["a.md"] := by
    simp [searchNotes, aclOkBool, checkReadAccess, matchesAny, globMatch,
      scenarioAcl, enumVault, sortStrings, insertSorted, jsTruthy]
  refine ⟨hres, ?_⟩
  exact (enumeration_silent_acl_filtering enumVault scenarioAcl none none
    none [] "" "a.md").1 ["a.md"] hres (by decide)

/-- C10: pattern compilation keeps exactly the successfully compiled
patterns, in order (it is filterMap of the compiler), and an invalid
pattern never fails read_note_with_embeds: whenever the note itself is
readable the call succeeds and expands with just the compiled patterns,
and any error of the call comes from fetching the note, not from the
patterns. -/
theorem compileExcludePatterns_skips_invalid
    (compile : String → Option (String → Bool)) (patterns : List String)
    (v : Vault) (acl : PathACL) (path : String)
    (excludePatterns : Option (List String)) (includeLinks : Bool) :
    compileExcludePatterns compile patterns = patterns.filterMap compile ∧
    (∀ file, getFileWithAclCheck v acl path false = .ok file →
      readNoteWithEmbeds v acl compile path excludePatterns includeLinks =
        .ok (expandLinkedFiles v acl file file.content
          (compileExcludePatterns compile (excludePatterns.getD []))
          includeLinks)) ∧
    (∀ e, readNoteWithEmbeds v acl compile path excludePatterns
        includeLinks = .error e →
      getFileWithAclCheck v acl path false = .error e) := by
  have hgen : ∀ (ps : List String) (acc : List (String → Bool)),
      ps.foldl (fun compiled pattern =>
        match compile pattern with
        | some r => compiled ++ [r]
        | none => compiled) acc = acc ++ ps.filterMap compile := by
    intro ps
    induction ps with
    | nil => intro acc; simp
    | cons q rest ih =>
        intro acc
        rw [List.foldl_cons, List.filterMap_cons]
        cases hq : compile q with
        | none => simp [ih]
        | some r => simp [ih]
  refine ⟨by simpa using hgen patterns [], ?_, ?_⟩
  · intro file hfile
    rw [readNoteWithEmbeds, hfile]
  · intro e he
    rw [readNoteWithEmbeds] at he
    cases hfile : getFileWithAclCheck v acl path false with
    | error e' =>
        rw [hfile] at he
        simp only [Except.error.injEq] at he
        rw [he]
    | ok file => rw [hfile] at he; cases he

/-- A model RegExp compiler: the pattern of a lone open parenthesis is
invalid; every other pattern compiles. -/
def demoCompile : String → Option (String → Bool) :=
  fun pattern =>
    if pattern = "(" then none
    else some (fun s => strStartsWith s pattern)

/-- Witness for C10: with one invalid and one valid pattern, the
compiled list is exactly the one valid test, and read_note_with_embeds
on the cyclic vault still succeeds. -/
theorem compileExcludePatterns_skips_invalid_witness :
    compileExcludePatterns demoCompile ["(", "x"] =
      (["(", "x"] : List String).filterMap demoCompile ∧
    readNoteWithEmbeds cyclicVault openAcl demoCompile "a.md"
        (some ["(", "x"]) false =
      .ok (expandLinkedFiles cyclicVault openAcl cyclicFileA
        cyclicFileA.content
        (compileExcludePatterns demoCompile
          ((some ["(", "x"] : Option (List String)).getD [])) false) := by
  refine ⟨(compileExcludePatterns_skips_invalid demoCompile ["(", "x"]
    cyclicVault openAcl "a.md" (some ["(", "x"]) false).1, ?_⟩
  have hfile : getFileWithAclCheck cyclicVault openAcl "a.md" false =
      .ok cyclicFileA := rfl
  have := (compileExcludePatterns_skips_invalid demoCompile ["(", "x"]
    cyclicVault openAcl "a.md" (some ["(", "x"]) false).2.1 cyclicFileA
    hfile
  simpa using this

end VaultMCP
